import Mathlib

/-!
Verification of the command expression parser and executor of `repo-manage`
(`src/repo_manage/command/exec.py`).

The Python module defines a closed hierarchy of command nodes
(`CmdSingle`, `CmdSequence`, `CmdAnd`, `CmdOr`), a token-stream parser
(`Cmd.parse`) with an `append`-based combination pass, and an executor
walking the tree against a working directory.  This file embeds those
definitions shallowly and proves properties of them.
-/

set_option maxHeartbeats 1000000

/-- The command expression tree.  `single` is `CmdSingle` (holding the raw
argument tokens), `seqn` is `CmdSequence`, `andn` is `CmdAnd`, `orn` is
`CmdOr`; the three compound constructors hold the `self.command` child list. -/
inductive Cmd where
  | single : List String → Cmd
  | seqn : List Cmd → Cmd
  | andn : List Cmd → Cmd
  | orn : List Cmd → Cmd
deriving Repr

/-- The parse failure kinds of `Cmd.parse`.  The Python code raises
`ValueError` with distinct messages: "No command provided." (`emptyCommand`),
"Unmatched opening parenthesis/brace." and "Unmatched closing parenthesis or
brace." (`unmatchedBracket`), "Unexpected argument before opening
parenthesis/brace." (`unexpectedToken`). -/
inductive ParseError where
  | emptyCommand
  | unmatchedBracket
  | unexpectedToken
deriving Repr, DecidableEq

/-- `CmdSingle(*current_args)`: a single command from its argument tokens. -/
def CmdSingle (args : List String) : Cmd := .single args

/-- The child-list flattening done by `CmdSequence.__init__`: a direct
`CmdSequence` argument contributes its own children, anything else is
appended as-is. -/
def seqFlat : List Cmd → List Cmd
  | [] => []
  | c :: cs =>
    (match c with
     | .seqn inner => inner
     | other => [other]) ++ seqFlat cs

/-- `CmdSequence(*command)`: builds a sequence node, flattening direct
`CmdSequence` children. -/
def CmdSequence (cs : List Cmd) : Cmd := .seqn (seqFlat cs)

/-- The child-list flattening done by `CmdAnd.__init__`. -/
def andFlat : List Cmd → List Cmd
  | [] => []
  | c :: cs =>
    (match c with
     | .andn inner => inner
     | other => [other]) ++ andFlat cs

/-- `CmdAnd(*command)`: builds an and node, flattening direct `CmdAnd`
children. -/
def CmdAnd (cs : List Cmd) : Cmd := .andn (andFlat cs)

/-- The child-list flattening done by `CmdOr.__init__`. -/
def orFlat : List Cmd → List Cmd
  | [] => []
  | c :: cs =>
    (match c with
     | .orn inner => inner
     | other => [other]) ++ orFlat cs

/-- `CmdOr(*command)`: builds an or node, flattening direct `CmdOr`
children. -/
def CmdOr (cs : List Cmd) : Cmd := .orn (orFlat cs)

/-- `Cmd.append`: combines two nodes, preserving types as the Python
method's `isinstance` cascade does.  A `CmdSequence` on either side (or two
`CmdSingle`s) yields a `CmdSequence`; a `CmdSingle` on the left adopts the
right side's compound class; otherwise the left side's class wins. -/
def Cmd.append (self other : Cmd) : Cmd :=
  match self, other with
  | .seqn a, _ => CmdSequence [.seqn a, other]
  | _, .seqn b => CmdSequence [self, .seqn b]
  | .single a, .single b => CmdSequence [.single a, .single b]
  | .single a, .andn b => CmdAnd [.single a, .andn b]
  | .single a, .orn b => CmdOr [.single a, .orn b]
  | .andn a, _ => CmdAnd [.andn a, other]
  | .orn a, _ => CmdOr [.orn a, other]

/-- Whether a node is a `CmdSequence`; this is the `isinstance(x, CmdSequence)`
key used by the `groupby` combination pass of `Cmd.parse`. -/
def Cmd.isSeqB : Cmd → Bool
  | .seqn _ => true
  | _ => false

/-- `args.index(tok, start)` relative to a suffix: splits a token list at the
first occurrence of `tok`, returning the elements before it and after it, or
`none` when `tok` does not occur. -/
def splitAtFirst (tok : String) : List String → Option (List String × List String)
  | [] => none
  | x :: xs =>
    if x = tok then some ([], xs)
    else
      match splitAtFirst tok xs with
      | none => none
      | some (pre, post) => some (x :: pre, post)

theorem splitAtFirst_some_length {tok : String} :
    ∀ {xs pre post : List String}, splitAtFirst tok xs = some (pre, post) →
      pre.length + post.length + 1 = xs.length := by
  intro xs
  induction xs with
  | nil => intro pre post h; simp [splitAtFirst] at h
  | cons x xs ih =>
    intro pre post h
    by_cases hx : x = tok
    · simp [splitAtFirst, hx] at h
      obtain ⟨h1, h2⟩ := h
      subst h1; subst h2; simp
    · simp only [splitAtFirst, if_neg hx] at h
      rcases hsp : splitAtFirst tok xs with _ | ⟨pre', post'⟩
      · rw [hsp] at h; simp at h
      · rw [hsp] at h
        simp at h
        obtain ⟨h1, h2⟩ := h
        subst h1; subst h2
        have := ih hsp
        simp [List.length_cons]
        omega

theorem splitAtFirst_none {tok : String} :
    ∀ {xs : List String}, splitAtFirst tok xs = none → tok ∉ xs := by
  intro xs
  induction xs with
  | nil => intro _; simp
  | cons x xs ih =>
    intro h hm
    by_cases hx : x = tok
    · simp [splitAtFirst, hx] at h
    · simp only [splitAtFirst, if_neg hx] at h
      rcases hsp : splitAtFirst tok xs with _ | p
      · rcases List.mem_cons.mp hm with h1 | h2
        · exact hx h1.symm
        · exact ih hsp h2
      · rw [hsp] at h; simp at h

/-- If `tok` does not occur in `pre`, the split finds exactly the `tok`
separating `pre` from `post`. -/
theorem splitAtFirst_append {tok : String} :
    ∀ {pre : List String}, tok ∉ pre → ∀ post,
      splitAtFirst tok (pre ++ tok :: post) = some (pre, post) := by
  intro pre
  induction pre with
  | nil => intro _ post; simp [splitAtFirst]
  | cons x xs ih =>
    intro h post
    have hx : x ≠ tok := fun he => h (by simp [he])
    have hxs : tok ∉ xs := fun hm => h (by simp [hm])
    simp only [List.cons_append, splitAtFirst, if_neg hx]
    rw [show xs.append (tok :: post) = xs ++ tok :: post from rfl, ih hxs post]

/-- The flush step of the parse loop: a non-empty argument buffer is pushed
onto the stack as a `CmdSingle`. -/
def flushArgs (current : List String) (stack : List Cmd) : List Cmd :=
  if current.isEmpty then stack else stack ++ [CmdSingle current]

/-- One maximal run of stack entries sharing the `isSeqB` key `k`, together
with the remaining entries (the step of `itertools.groupby`). -/
def takeRun (k : Bool) : List Cmd → List Cmd × List Cmd
  | [] => ([], [])
  | x :: xs =>
    if x.isSeqB = k then
      let (r, rest) := takeRun k xs
      (x :: r, rest)
    else ([], x :: xs)

theorem takeRun_rest_length (k : Bool) :
    ∀ xs : List Cmd, (takeRun k xs).2.length ≤ xs.length := by
  intro xs
  induction xs with
  | nil => simp [takeRun]
  | cons x xs ih =>
    by_cases hx : x.isSeqB = k
    · simp only [takeRun, if_pos hx]
      exact le_trans ih (by simp)
    · simp [takeRun, hx]

/-- `itertools.groupby(stack, key=isinstance CmdSequence)`: the list of
maximal runs of consecutive entries with equal key; each run is kept as a
head plus tail to record non-emptiness. -/
def groupRuns : List Cmd → List (Cmd × List Cmd)
  | [] => []
  | x :: xs =>
    (x, (takeRun x.isSeqB xs).1) :: groupRuns (takeRun x.isSeqB xs).2
termination_by l => l.length
decreasing_by
  simp_wf
  exact Nat.lt_succ_of_le (takeRun_rest_length _ _)

/-- The in-place fold of one substack in `Cmd.parse`: repeatedly pop the last
element and `append` it to its predecessor, i.e. a right fold with
`Cmd.append`. -/
def fold1 (x : Cmd) : List Cmd → Cmd
  | [] => x
  | y :: ys => x.append (fold1 y ys)

/-- Fold one `groupby` run down to a single node. -/
def foldRun (r : Cmd × List Cmd) : Cmd := fold1 r.1 r.2

mutual

/-- `Cmd.parse`: parses the token list into a command tree, or fails with a
`ParseError`. -/
def Cmd.parse (args : List String) : Except ParseError Cmd :=
  if args.isEmpty then .error .emptyCommand
  else
    match Cmd.parseLoop args [] [] with
    | .error e => .error e
    | .ok stack =>
      match groupRuns stack with
      | [] => .error .emptyCommand
      | [run] => .ok (foldRun run)
      | r₁ :: r₂ :: rs => .ok (CmdSequence ((r₁ :: r₂ :: rs).map foldRun))
termination_by (args.length, 1)
decreasing_by
  apply Prod.Lex.right; omega

/-- The token-scanning loop of `Cmd.parse`: walks the remaining tokens with
the current argument buffer and the node/marker stack.  Separator markers are
the empty compound nodes `CmdSequence()`, `CmdOr()`, `CmdAnd()` exactly as in
the Python code. -/
def Cmd.parseLoop : List String → List String → List Cmd →
    Except ParseError (List Cmd)
  | [], current, stack =>
    .ok (if current.isEmpty then stack else stack ++ [CmdSingle current])
  | arg :: rest, current, stack =>
    if arg = "(" then
      if !current.isEmpty then .error .unexpectedToken
      else
        match h : splitAtFirst ")" rest with
        | none => .error .unmatchedBracket
        | some (inner, post) =>
          match Cmd.parse inner with
          | .error e => .error e
          | .ok node => Cmd.parseLoop post current (stack ++ [node])
    else if arg = "\x7b" then
      if !current.isEmpty then .error .unexpectedToken
      else
        match h : splitAtFirst "\x7d" rest with
        | none => .error .unmatchedBracket
        | some (inner, post) =>
          match Cmd.parse inner with
          | .error e => .error e
          | .ok node => Cmd.parseLoop post current (stack ++ [node])
    else if arg = ")" ∨ arg = "\x7d" then .error .unmatchedBracket
    else if arg = ";" then
      Cmd.parseLoop rest [] (flushArgs current stack ++ [.seqn []])
    else if arg = "||" then
      Cmd.parseLoop rest [] (flushArgs current stack ++ [.orn []])
    else if arg = "&&" then
      Cmd.parseLoop rest [] (flushArgs current stack ++ [.andn []])
    else
      Cmd.parseLoop rest (current ++ [arg]) stack
termination_by toks _ _ => (toks.length, 0)
decreasing_by
  all_goals apply Prod.Lex.left
  all_goals try (have hsl := splitAtFirst_some_length h; simp; omega)
  all_goals simp

end

/-! ## The executor

`CmdSingle.execute` invokes `subprocess.run(self.command, cwd=cwd,
check=check, capture_output=capture, text=True)`.  The external process
runner is modelled as a function from the invocation index (the number of
processes spawned so far), the working directory and the argument list to the
process's exit code, stdout text and stderr text; the executor threads the
ordered log of spawned argument lists, which is the observable "which
commands were executed, in which order". -/

/-- The model of `subprocess.run`: invocation index, working directory and
argument list determine exit code, stdout and stderderr text. -/
abbrev Runner := Nat → String → List String → Int × String × String

/-- The ordered log of spawned processes (their argument lists). -/
abbrev SpawnLog := List (List String)

/-- The run-time failures of `execute`: `calledProcess` is the
`subprocess.CalledProcessError` raised by `subprocess.run` when `check` is
true and the exit code is non-zero; `indexOutOfRange` is the `IndexError`
raised by `results[-1]` on an empty result list. -/
inductive ExecError where
  | calledProcess
  | indexOutOfRange
deriving Repr, DecidableEq

/-- `CmdResult`: exit code plus optionally captured stdout/stderr. -/
structure CmdResult where
  exit_code : Int
  stdout : Option String
  stderr : Option String
deriving Repr, DecidableEq

/-- The fixed separator joining captured child streams. -/
def sepMarker : String := "\n######\n"

/-- `"\n######\n".join(result.stdout or "" for result in results)`. -/
def joinStdout (rs : List CmdResult) : String :=
  String.intercalate sepMarker (rs.map fun r => r.stdout.getD "")

/-- `"\n######\n".join(result.stderr or "" for result in results)`. -/
def joinStderr (rs : List CmdResult) : String :=
  String.intercalate sepMarker (rs.map fun r => r.stderr.getD "")

/-- The `CmdResult` a compound node builds from its executed children's
results: the last result's exit code, and the joined streams if captured. -/
def combineResult (capture : Bool) (last : CmdResult) (rs : List CmdResult) :
    CmdResult :=
  ⟨last.exit_code,
   if capture then some (joinStdout rs) else none,
   if capture then some (joinStderr rs) else none⟩

mutual

/-- `Cmd.execute`: the recursive tree walk.  The `single` case mirrors
`CmdSingle.execute` (spawn, then raise if `check` and non-zero); the other
cases mirror `CmdSequence.execute`, `CmdOr.execute` and `CmdAnd.execute`
(run children via the respective loop, then index `results[-1]`). -/
def Cmd.execute (runner : Runner) (cwd : String) (check capture : Bool) :
    Cmd → SpawnLog → Except ExecError CmdResult × SpawnLog
  | .single args, log =>
    let r := runner log.length cwd args
    if check && r.1 != 0 then (.error .calledProcess, log ++ [args])
    else
      (.ok ⟨r.1, if capture then some r.2.1 else none,
            if capture then some r.2.2 else none⟩, log ++ [args])
  | .seqn cs, log =>
    match execAll runner cwd check capture cs log with
    | (.error e, log') => (.error e, log')
    | (.ok rs, log') =>
      match rs.getLast? with
      | none => (.error .indexOutOfRange, log')
      | some last => (.ok (combineResult capture last rs), log')
  | .orn cs, log =>
    match execOr runner cwd check capture cs log with
    | (.error e, log') => (.error e, log')
    | (.ok rs, log') =>
      match rs.getLast? with
      | none => (.error .indexOutOfRange, log')
      | some last => (.ok (combineResult capture last rs), log')
  | .andn cs, log =>
    match execAnd runner cwd check capture cs log with
    | (.error e, log') => (.error e, log')
    | (.ok rs, log') =>
      match rs.getLast? with
      | none => (.error .indexOutOfRange, log')
      | some last => (.ok (combineResult capture last rs), log')
termination_by c _ => sizeOf c

/-- The child loop of `CmdSequence.execute`: every child runs, in order. -/
def execAll (runner : Runner) (cwd : String) (check capture : Bool) :
    List Cmd → SpawnLog → Except ExecError (List CmdResult) × SpawnLog
  | [], log => (.ok [], log)
  | c :: cs, log =>
    match Cmd.execute runner cwd check capture c log with
    | (.error e, log') => (.error e, log')
    | (.ok r, log') =>
      match execAll runner cwd check capture cs log' with
      | (.error e, log'') => (.error e, log'')
      | (.ok rs, log'') => (.ok (r :: rs), log'')
termination_by cs _ => sizeOf cs

/-- The child loop of `CmdOr.execute`: stop after the first child whose exit
code is zero. -/
def execOr (runner : Runner) (cwd : String) (check capture : Bool) :
    List Cmd → SpawnLog → Except ExecError (List CmdResult) × SpawnLog
  | [], log => (.ok [], log)
  | c :: cs, log =>
    match Cmd.execute runner cwd check capture c log with
    | (.error e, log') => (.error e, log')
    | (.ok r, log') =>
      if r.exit_code == 0 then (.ok [r], log')
      else
        match execOr runner cwd check capture cs log' with
        | (.error e, log'') => (.error e, log'')
        | (.ok rs, log'') => (.ok (r :: rs), log'')
termination_by cs _ => sizeOf cs

/-- The child loop of `CmdAnd.execute`: stop after the first child whose exit
code is non-zero. -/
def execAnd (runner : Runner) (cwd : String) (check capture : Bool) :
    List Cmd → SpawnLog → Except ExecError (List CmdResult) × SpawnLog
  | [], log => (.ok [], log)
  | c :: cs, log =>
    match Cmd.execute runner cwd check capture c log with
    | (.error e, log') => (.error e, log')
    | (.ok r, log') =>
      if r.exit_code != 0 then (.ok [r], log')
      else
        match execAnd runner cwd check capture cs log' with
        | (.error e, log'') => (.error e, log'')
        | (.ok rs, log'') => (.ok (r :: rs), log'')
termination_by cs _ => sizeOf cs

end

/-! ## Rendering and structural predicates -/

mutual

/-- `__str__` at the token level: a `Single` renders as its argument tokens;
a compound renders each child wrapped in `(`…`)` (the Python code emits
`f"({cmd})"`), joined with its separator token (`;`, `&&` or `||`). -/
def renderTokens : Cmd → List String
  | .single args => args
  | .seqn cs => renderGroup ";" cs
  | .andn cs => renderGroup "&&" cs
  | .orn cs => renderGroup "||" cs
termination_by c => sizeOf c

/-- `sep.join(f"({cmd})" for cmd in children)` at the token level. -/
def renderGroup (sep : String) : List Cmd → List String
  | [] => []
  | [c] => "(" :: (renderTokens c ++ [")"])
  | c :: c₂ :: cs =>
    "(" :: (renderTokens c ++ [")"] ++ sep :: renderGroup sep (c₂ :: cs))
termination_by cs => sizeOf cs

end

/-- Whether a node is a `CmdAnd`. -/
def Cmd.isAndB : Cmd → Bool
  | .andn _ => true
  | _ => false

/-- Whether a node is a `CmdOr`. -/
def Cmd.isOrB : Cmd → Bool
  | .orn _ => true
  | _ => false

/-- A plain command token: none of the parser's seven special tokens. -/
def plainTok (s : String) : Bool :=
  !(s = "(" || s = ")" || s = "\x7b" || s = "\x7d" || s = ";" || s = "||" || s = "&&")

/-- No `Sequence` directly contains a `Sequence`, no `And` an `And`, no `Or`
an `Or` (the flattening invariant maintained by the constructors). -/
def noSameNest : Cmd → Bool
  | .single _ => true
  | .seqn cs => cs.attach.all fun c => !c.1.isSeqB && noSameNest c.1
  | .andn cs => cs.attach.all fun c => !c.1.isAndB && noSameNest c.1
  | .orn cs => cs.attach.all fun c => !c.1.isOrB && noSameNest c.1
termination_by c => sizeOf c
decreasing_by
  all_goals
    have := List.sizeOf_lt_of_mem c.2
    simp; omega

/-- Every `Single` node in the tree has a non-empty argument list. -/
def singlesNonempty : Cmd → Bool
  | .single args => !args.isEmpty
  | .seqn cs => cs.attach.all fun c => singlesNonempty c.1
  | .andn cs => cs.attach.all fun c => singlesNonempty c.1
  | .orn cs => cs.attach.all fun c => singlesNonempty c.1
termination_by c => sizeOf c
decreasing_by
  all_goals
    have := List.sizeOf_lt_of_mem c.2
    simp; omega

/-- Every `Single` node in the tree has only plain argument tokens. -/
def singlesPlain : Cmd → Bool
  | .single args => args.all plainTok
  | .seqn cs => cs.attach.all fun c => singlesPlain c.1
  | .andn cs => cs.attach.all fun c => singlesPlain c.1
  | .orn cs => cs.attach.all fun c => singlesPlain c.1
termination_by c => sizeOf c
decreasing_by
  all_goals
    have := List.sizeOf_lt_of_mem c.2
    simp; omega

/-- Every non-`Single` node in the tree has a non-empty children list. -/
def childrenNonempty : Cmd → Bool
  | .single _ => true
  | .seqn cs => !cs.isEmpty && (cs.attach.all fun c => childrenNonempty c.1)
  | .andn cs => !cs.isEmpty && (cs.attach.all fun c => childrenNonempty c.1)
  | .orn cs => !cs.isEmpty && (cs.attach.all fun c => childrenNonempty c.1)
termination_by c => sizeOf c
decreasing_by
  all_goals
    have := List.sizeOf_lt_of_mem c.2
    simp; omega

/-- Structural induction over `Cmd` with a membership hypothesis for the
children of compound nodes. -/
theorem cmdInd (P : Cmd → Prop)
    (hs : ∀ args, P (.single args))
    (hq : ∀ cs, (∀ c ∈ cs, P c) → P (.seqn cs))
    (ha : ∀ cs, (∀ c ∈ cs, P c) → P (.andn cs))
    (ho : ∀ cs, (∀ c ∈ cs, P c) → P (.orn cs)) : ∀ c, P c
  | .single args => hs args
  | .seqn cs => hq cs fun c _ => cmdInd P hs hq ha ho c
  | .andn cs => ha cs fun c _ => cmdInd P hs hq ha ho c
  | .orn cs => ho cs fun c _ => cmdInd P hs hq ha ho c
termination_by c => sizeOf c
decreasing_by
  all_goals
    rename_i hmem
    have := List.sizeOf_lt_of_mem hmem
    simp; omega

/-! ## The parse-result invariant

`goodCmd` bundles the structural facts maintained by `Cmd.parse`: no
same-type direct nesting, and every `Single` holds a non-empty list of plain
tokens.  The separate predicates above are projections of it. -/

/-- The combined invariant of trees built by `Cmd.parse`. -/
def goodCmd : Cmd → Bool
  | .single args => !args.isEmpty && args.all plainTok
  | .seqn cs => cs.attach.all fun c => !c.1.isSeqB && goodCmd c.1
  | .andn cs => cs.attach.all fun c => !c.1.isAndB && goodCmd c.1
  | .orn cs => cs.attach.all fun c => !c.1.isOrB && goodCmd c.1
termination_by c => sizeOf c
decreasing_by
  all_goals
    have := List.sizeOf_lt_of_mem c.2
    simp; omega

theorem goodCmd_seqn {cs : List Cmd} :
    goodCmd (.seqn cs) = true ↔
      ∀ c ∈ cs, c.isSeqB = false ∧ goodCmd c = true := by
  rw [goodCmd]
  constructor
  · intro h c hc
    have := List.all_eq_true.mp h ⟨c, hc⟩ (List.mem_attach _ _)
    simpa using this
  · intro h
    apply List.all_eq_true.mpr
    intro ⟨c, hc⟩ _
    simpa using h c hc

theorem goodCmd_andn {cs : List Cmd} :
    goodCmd (.andn cs) = true ↔
      ∀ c ∈ cs, c.isAndB = false ∧ goodCmd c = true := by
  rw [goodCmd]
  constructor
  · intro h c hc
    have := List.all_eq_true.mp h ⟨c, hc⟩ (List.mem_attach _ _)
    simpa using this
  · intro h
    apply List.all_eq_true.mpr
    intro ⟨c, hc⟩ _
    simpa using h c hc

theorem goodCmd_orn {cs : List Cmd} :
    goodCmd (.orn cs) = true ↔
      ∀ c ∈ cs, c.isOrB = false ∧ goodCmd c = true := by
  rw [goodCmd]
  constructor
  · intro h c hc
    have := List.all_eq_true.mp h ⟨c, hc⟩ (List.mem_attach _ _)
    simpa using this
  · intro h
    apply List.all_eq_true.mpr
    intro ⟨c, hc⟩ _
    simpa using h c hc

theorem goodCmd_single {args : List String} :
    goodCmd (.single args) = true ↔
      args.isEmpty = false ∧ args.all plainTok = true := by
  rw [goodCmd]; simp

theorem noSameNest_seqn {cs : List Cmd} :
    noSameNest (.seqn cs) = true ↔
      ∀ c ∈ cs, c.isSeqB = false ∧ noSameNest c = true := by
  rw [noSameNest]
  constructor
  · intro h c hc
    have := List.all_eq_true.mp h ⟨c, hc⟩ (List.mem_attach _ _)
    simpa using this
  · intro h
    apply List.all_eq_true.mpr
    intro ⟨c, hc⟩ _
    simpa using h c hc

theorem noSameNest_andn {cs : List Cmd} :
    noSameNest (.andn cs) = true ↔
      ∀ c ∈ cs, c.isAndB = false ∧ noSameNest c = true := by
  rw [noSameNest]
  constructor
  · intro h c hc
    have := List.all_eq_true.mp h ⟨c, hc⟩ (List.mem_attach _ _)
    simpa using this
  · intro h
    apply List.all_eq_true.mpr
    intro ⟨c, hc⟩ _
    simpa using h c hc

theorem noSameNest_orn {cs : List Cmd} :
    noSameNest (.orn cs) = true ↔
      ∀ c ∈ cs, c.isOrB = false ∧ noSameNest c = true := by
  rw [noSameNest]
  constructor
  · intro h c hc
    have := List.all_eq_true.mp h ⟨c, hc⟩ (List.mem_attach _ _)
    simpa using this
  · intro h
    apply List.all_eq_true.mpr
    intro ⟨c, hc⟩ _
    simpa using h c hc

theorem singlesNonempty_seqn {cs : List Cmd} :
    singlesNonempty (.seqn cs) = true ↔ ∀ c ∈ cs, singlesNonempty c = true := by
  rw [singlesNonempty]
  constructor
  · intro h c hc
    have := List.all_eq_true.mp h ⟨c, hc⟩ (List.mem_attach _ _)
    simpa using this
  · intro h
    apply List.all_eq_true.mpr
    intro ⟨c, hc⟩ _
    simpa using h c hc

theorem singlesNonempty_andn {cs : List Cmd} :
    singlesNonempty (.andn cs) = true ↔ ∀ c ∈ cs, singlesNonempty c = true := by
  rw [singlesNonempty]
  constructor
  · intro h c hc
    have := List.all_eq_true.mp h ⟨c, hc⟩ (List.mem_attach _ _)
    simpa using this
  · intro h
    apply List.all_eq_true.mpr
    intro ⟨c, hc⟩ _
    simpa using h c hc

theorem singlesNonempty_orn {cs : List Cmd} :
    singlesNonempty (.orn cs) = true ↔ ∀ c ∈ cs, singlesNonempty c = true := by
  rw [singlesNonempty]
  constructor
  · intro h c hc
    have := List.all_eq_true.mp h ⟨c, hc⟩ (List.mem_attach _ _)
    simpa using this
  · intro h
    apply List.all_eq_true.mpr
    intro ⟨c, hc⟩ _
    simpa using h c hc

theorem singlesPlain_seqn {cs : List Cmd} :
    singlesPlain (.seqn cs) = true ↔ ∀ c ∈ cs, singlesPlain c = true := by
  rw [singlesPlain]
  constructor
  · intro h c hc
    have := List.all_eq_true.mp h ⟨c, hc⟩ (List.mem_attach _ _)
    simpa using this
  · intro h
    apply List.all_eq_true.mpr
    intro ⟨c, hc⟩ _
    simpa using h c hc

theorem singlesPlain_andn {cs : List Cmd} :
    singlesPlain (.andn cs) = true ↔ ∀ c ∈ cs, singlesPlain c = true := by
  rw [singlesPlain]
  constructor
  · intro h c hc
    have := List.all_eq_true.mp h ⟨c, hc⟩ (List.mem_attach _ _)
    simpa using this
  · intro h
    apply List.all_eq_true.mpr
    intro ⟨c, hc⟩ _
    simpa using h c hc

theorem singlesPlain_orn {cs : List Cmd} :
    singlesPlain (.orn cs) = true ↔ ∀ c ∈ cs, singlesPlain c = true := by
  rw [singlesPlain]
  constructor
  · intro h c hc
    have := List.all_eq_true.mp h ⟨c, hc⟩ (List.mem_attach _ _)
    simpa using this
  · intro h
    apply List.all_eq_true.mpr
    intro ⟨c, hc⟩ _
    simpa using h c hc

theorem childrenNonempty_seqn {cs : List Cmd} :
    childrenNonempty (.seqn cs) = true ↔
      cs ≠ [] ∧ ∀ c ∈ cs, childrenNonempty c = true := by
  rw [childrenNonempty]
  simp only [Bool.and_eq_true]
  constructor
  · intro ⟨h0, h⟩
    refine ⟨by simpa using h0, fun c hc => ?_⟩
    have := List.all_eq_true.mp h ⟨c, hc⟩ (List.mem_attach _ _)
    simpa using this
  · intro ⟨h0, h⟩
    refine ⟨by simpa using h0, ?_⟩
    apply List.all_eq_true.mpr
    intro ⟨c, hc⟩ _
    simpa using h c hc

theorem childrenNonempty_andn {cs : List Cmd} :
    childrenNonempty (.andn cs) = true ↔
      cs ≠ [] ∧ ∀ c ∈ cs, childrenNonempty c = true := by
  rw [childrenNonempty]
  simp only [Bool.and_eq_true]
  constructor
  · intro ⟨h0, h⟩
    refine ⟨by simpa using h0, fun c hc => ?_⟩
    have := List.all_eq_true.mp h ⟨c, hc⟩ (List.mem_attach _ _)
    simpa using this
  · intro ⟨h0, h⟩
    refine ⟨by simpa using h0, ?_⟩
    apply List.all_eq_true.mpr
    intro ⟨c, hc⟩ _
    simpa using h c hc

theorem childrenNonempty_orn {cs : List Cmd} :
    childrenNonempty (.orn cs) = true ↔
      cs ≠ [] ∧ ∀ c ∈ cs, childrenNonempty c = true := by
  rw [childrenNonempty]
  simp only [Bool.and_eq_true]
  constructor
  · intro ⟨h0, h⟩
    refine ⟨by simpa using h0, fun c hc => ?_⟩
    have := List.all_eq_true.mp h ⟨c, hc⟩ (List.mem_attach _ _)
    simpa using this
  · intro ⟨h0, h⟩
    refine ⟨by simpa using h0, ?_⟩
    apply List.all_eq_true.mpr
    intro ⟨c, hc⟩ _
    simpa using h c hc

theorem goodCmd_imp_noSameNest : ∀ c, goodCmd c = true → noSameNest c = true := by
  apply cmdInd (fun c => goodCmd c = true → noSameNest c = true)
  · intro args _
    rw [noSameNest]
  · intro cs ih hg
    rw [noSameNest_seqn]
    intro c hc
    obtain ⟨h1, h2⟩ := goodCmd_seqn.mp hg c hc
    exact ⟨h1, ih c hc h2⟩
  · intro cs ih hg
    rw [noSameNest_andn]
    intro c hc
    obtain ⟨h1, h2⟩ := goodCmd_andn.mp hg c hc
    exact ⟨h1, ih c hc h2⟩
  · intro cs ih hg
    rw [noSameNest_orn]
    intro c hc
    obtain ⟨h1, h2⟩ := goodCmd_orn.mp hg c hc
    exact ⟨h1, ih c hc h2⟩

theorem goodCmd_imp_singlesNonempty :
    ∀ c, goodCmd c = true → singlesNonempty c = true := by
  apply cmdInd (fun c => goodCmd c = true → singlesNonempty c = true)
  · intro args hg
    rw [singlesNonempty]
    have := (goodCmd_single.mp hg).1
    simp [this]
  · intro cs ih hg
    rw [singlesNonempty_seqn]
    intro c hc
    exact ih c hc (goodCmd_seqn.mp hg c hc).2
  · intro cs ih hg
    rw [singlesNonempty_andn]
    intro c hc
    exact ih c hc (goodCmd_andn.mp hg c hc).2
  · intro cs ih hg
    rw [singlesNonempty_orn]
    intro c hc
    exact ih c hc (goodCmd_orn.mp hg c hc).2

theorem goodCmd_imp_singlesPlain :
    ∀ c, goodCmd c = true → singlesPlain c = true := by
  apply cmdInd (fun c => goodCmd c = true → singlesPlain c = true)
  · intro args hg
    rw [singlesPlain]
    exact (goodCmd_single.mp hg).2
  · intro cs ih hg
    rw [singlesPlain_seqn]
    intro c hc
    exact ih c hc (goodCmd_seqn.mp hg c hc).2
  · intro cs ih hg
    rw [singlesPlain_andn]
    intro c hc
    exact ih c hc (goodCmd_andn.mp hg c hc).2
  · intro cs ih hg
    rw [singlesPlain_orn]
    intro c hc
    exact ih c hc (goodCmd_orn.mp hg c hc).2

/-! ## Preservation of the invariant by the combination machinery -/

theorem seqFlat_good : ∀ {cs : List Cmd}, (∀ c ∈ cs, goodCmd c = true) →
    ∀ d ∈ seqFlat cs, d.isSeqB = false ∧ goodCmd d = true := by
  intro cs
  induction cs with
  | nil => intro _ d hd; simp [seqFlat] at hd
  | cons c cs ih =>
    intro hg d hd
    have hc : goodCmd c = true := hg c (List.mem_cons_self _ _)
    have hcs : ∀ x ∈ cs, goodCmd x = true :=
      fun x hx => hg x (List.mem_cons_of_mem _ hx)
    cases c with
    | seqn inner =>
      rw [show seqFlat (Cmd.seqn inner :: cs) = inner ++ seqFlat cs from rfl] at hd
      rcases List.mem_append.mp hd with h1 | h2
      · exact goodCmd_seqn.mp hc d h1
      · exact ih hcs d h2
    | single a =>
      rw [show seqFlat (Cmd.single a :: cs) = [Cmd.single a] ++ seqFlat cs from rfl] at hd
      rcases List.mem_append.mp hd with h1 | h2
      · simp at h1; subst h1; exact ⟨rfl, hc⟩
      · exact ih hcs d h2
    | andn a =>
      rw [show seqFlat (Cmd.andn a :: cs) = [Cmd.andn a] ++ seqFlat cs from rfl] at hd
      rcases List.mem_append.mp hd with h1 | h2
      · simp at h1; subst h1; exact ⟨rfl, hc⟩
      · exact ih hcs d h2
    | orn a =>
      rw [show seqFlat (Cmd.orn a :: cs) = [Cmd.orn a] ++ seqFlat cs from rfl] at hd
      rcases List.mem_append.mp hd with h1 | h2
      · simp at h1; subst h1; exact ⟨rfl, hc⟩
      · exact ih hcs d h2

theorem andFlat_good : ∀ {cs : List Cmd}, (∀ c ∈ cs, goodCmd c = true) →
    ∀ d ∈ andFlat cs, d.isAndB = false ∧ goodCmd d = true := by
  intro cs
  induction cs with
  | nil => intro _ d hd; simp [andFlat] at hd
  | cons c cs ih =>
    intro hg d hd
    have hc : goodCmd c = true := hg c (List.mem_cons_self _ _)
    have hcs : ∀ x ∈ cs, goodCmd x = true :=
      fun x hx => hg x (List.mem_cons_of_mem _ hx)
    cases c with
    | andn inner =>
      rw [show andFlat (Cmd.andn inner :: cs) = inner ++ andFlat cs from rfl] at hd
      rcases List.mem_append.mp hd with h1 | h2
      · exact goodCmd_andn.mp hc d h1
      · exact ih hcs d h2
    | single a =>
      rw [show andFlat (Cmd.single a :: cs) = [Cmd.single a] ++ andFlat cs from rfl] at hd
      rcases List.mem_append.mp hd with h1 | h2
      · simp at h1; subst h1; exact ⟨rfl, hc⟩
      · exact ih hcs d h2
    | seqn a =>
      rw [show andFlat (Cmd.seqn a :: cs) = [Cmd.seqn a] ++ andFlat cs from rfl] at hd
      rcases List.mem_append.mp hd with h1 | h2
      · simp at h1; subst h1; exact ⟨rfl, hc⟩
      · exact ih hcs d h2
    | orn a =>
      rw [show andFlat (Cmd.orn a :: cs) = [Cmd.orn a] ++ andFlat cs from rfl] at hd
      rcases List.mem_append.mp hd with h1 | h2
      · simp at h1; subst h1; exact ⟨rfl, hc⟩
      · exact ih hcs d h2

theorem orFlat_good : ∀ {cs : List Cmd}, (∀ c ∈ cs, goodCmd c = true) →
    ∀ d ∈ orFlat cs, d.isOrB = false ∧ goodCmd d = true := by
  intro cs
  induction cs with
  | nil => intro _ d hd; simp [orFlat] at hd
  | cons c cs ih =>
    intro hg d hd
    have hc : goodCmd c = true := hg c (List.mem_cons_self _ _)
    have hcs : ∀ x ∈ cs, goodCmd x = true :=
      fun x hx => hg x (List.mem_cons_of_mem _ hx)
    cases c with
    | orn inner =>
      rw [show orFlat (Cmd.orn inner :: cs) = inner ++ orFlat cs from rfl] at hd
      rcases List.mem_append.mp hd with h1 | h2
      · exact goodCmd_orn.mp hc d h1
      · exact ih hcs d h2
    | single a =>
      rw [show orFlat (Cmd.single a :: cs) = [Cmd.single a] ++ orFlat cs from rfl] at hd
      rcases List.mem_append.mp hd with h1 | h2
      · simp at h1; subst h1; exact ⟨rfl, hc⟩
      · exact ih hcs d h2
    | seqn a =>
      rw [show orFlat (Cmd.seqn a :: cs) = [Cmd.seqn a] ++ orFlat cs from rfl] at hd
      rcases List.mem_append.mp hd with h1 | h2
      · simp at h1; subst h1; exact ⟨rfl, hc⟩
      · exact ih hcs d h2
    | andn a =>
      rw [show orFlat (Cmd.andn a :: cs) = [Cmd.andn a] ++ orFlat cs from rfl] at hd
      rcases List.mem_append.mp hd with h1 | h2
      · simp at h1; subst h1; exact ⟨rfl, hc⟩
      · exact ih hcs d h2

theorem CmdSequence_good {cs : List Cmd} (hg : ∀ c ∈ cs, goodCmd c = true) :
    goodCmd (CmdSequence cs) = true :=
  goodCmd_seqn.mpr (seqFlat_good hg)

theorem CmdAnd_good {cs : List Cmd} (hg : ∀ c ∈ cs, goodCmd c = true) :
    goodCmd (CmdAnd cs) = true :=
  goodCmd_andn.mpr (andFlat_good hg)

theorem CmdOr_good {cs : List Cmd} (hg : ∀ c ∈ cs, goodCmd c = true) :
    goodCmd (CmdOr cs) = true :=
  goodCmd_orn.mpr (orFlat_good hg)

theorem append_good {a b : Cmd} (ha : goodCmd a = true) (hb : goodCmd b = true) :
    goodCmd (a.append b) = true := by
  have hpair : ∀ c ∈ [a, b], goodCmd c = true := by
    intro c hc
    rcases List.mem_cons.mp hc with h | h
    · subst h; exact ha
    · simp at h; subst h; exact hb
  cases a <;> cases b <;>
    first
      | exact CmdSequence_good hpair
      | exact CmdAnd_good hpair
      | exact CmdOr_good hpair

theorem fold1_good : ∀ {x : Cmd} {ys : List Cmd}, goodCmd x = true →
    (∀ y ∈ ys, goodCmd y = true) → goodCmd (fold1 x ys) = true := by
  intro x ys
  induction ys generalizing x with
  | nil => intro hx _; exact hx
  | cons y ys ih =>
    intro hx hys
    rw [fold1]
    exact append_good hx
      (ih (hys y (List.mem_cons_self _ _))
        fun z hz => hys z (List.mem_cons_of_mem _ hz))

theorem takeRun_fst_mem (k : Bool) :
    ∀ {xs : List Cmd} {d : Cmd}, d ∈ (takeRun k xs).1 → d ∈ xs := by
  intro xs
  induction xs with
  | nil => intro d hd; simp [takeRun] at hd
  | cons x xs ih =>
    intro d hd
    by_cases hx : x.isSeqB = k
    · simp only [takeRun, if_pos hx] at hd
      rcases List.mem_cons.mp hd with h | h
      · subst h; exact List.mem_cons_self _ _
      · exact List.mem_cons_of_mem _ (ih h)
    · simp [takeRun, hx] at hd

theorem takeRun_snd_mem (k : Bool) :
    ∀ {xs : List Cmd} {d : Cmd}, d ∈ (takeRun k xs).2 → d ∈ xs := by
  intro xs
  induction xs with
  | nil => intro d hd; simp [takeRun] at hd
  | cons x xs ih =>
    intro d hd
    by_cases hx : x.isSeqB = k
    · simp only [takeRun, if_pos hx] at hd
      exact List.mem_cons_of_mem _ (ih hd)
    · simp only [takeRun, if_neg hx] at hd
      exact hd

theorem groupRuns_mem : ∀ (n : Nat) (l : List Cmd), l.length ≤ n →
    ∀ r ∈ groupRuns l, r.1 ∈ l ∧ ∀ d ∈ r.2, d ∈ l := by
  intro n
  induction n with
  | zero =>
    intro l hl r hr
    have : l = [] := List.eq_nil_of_length_eq_zero (Nat.le_zero.mp hl)
    subst this
    simp [groupRuns] at hr
  | succ n ih =>
    intro l hl r hr
    match l with
    | [] => simp [groupRuns] at hr
    | x :: xs =>
      rw [groupRuns] at hr
      rcases List.mem_cons.mp hr with h | h
      · subst h
        exact ⟨List.mem_cons_self _ _,
          fun d hd => List.mem_cons_of_mem _ (takeRun_fst_mem _ hd)⟩
      · have hlen : (takeRun x.isSeqB xs).2.length ≤ n := by
          have := takeRun_rest_length x.isSeqB xs
          simp at hl
          omega
        obtain ⟨h1, h2⟩ := ih _ hlen r h
        exact ⟨List.mem_cons_of_mem _ (takeRun_snd_mem _ h1),
          fun d hd => List.mem_cons_of_mem _ (takeRun_snd_mem _ (h2 d hd))⟩

theorem foldRun_good {stack : List Cmd} {r : Cmd × List Cmd}
    (hg : ∀ c ∈ stack, goodCmd c = true)
    (hr : r ∈ groupRuns stack) : goodCmd (foldRun r) = true := by
  obtain ⟨h1, h2⟩ := groupRuns_mem stack.length stack le_rfl r hr
  exact fold1_good (hg _ h1) fun y hy => hg y (h2 y hy)

theorem goodCmd_seqn_nil : goodCmd (.seqn []) = true := goodCmd_seqn.mpr (by simp)

theorem goodCmd_andn_nil : goodCmd (.andn []) = true := goodCmd_andn.mpr (by simp)

theorem goodCmd_orn_nil : goodCmd (.orn []) = true := goodCmd_orn.mpr (by simp)

theorem CmdSingle_good {current : List String} (hne : current.isEmpty = false)
    (hp : ∀ a ∈ current, plainTok a = true) : goodCmd (CmdSingle current) = true :=
  goodCmd_single.mpr ⟨hne, List.all_eq_true.mpr hp⟩

theorem flushArgs_good {current : List String} {stack : List Cmd}
    (hcur : ∀ a ∈ current, plainTok a = true)
    (hstack : ∀ c ∈ stack, goodCmd c = true) :
    ∀ c ∈ flushArgs current stack, goodCmd c = true := by
  intro c hc
  rw [flushArgs] at hc
  by_cases he : current.isEmpty
  · rw [if_pos he] at hc; exact hstack c hc
  · rw [if_neg he] at hc
    rcases List.mem_append.mp hc with h | h
    · exact hstack c h
    · simp at h; subst h
      exact CmdSingle_good (Bool.not_eq_true _ ▸ Bool.of_not_eq_true he) hcur

theorem parseLoop_nil_good {current : List String} {stack : List Cmd}
    (hcur : ∀ a ∈ current, plainTok a = true)
    (hstack : ∀ c ∈ stack, goodCmd c = true)
    {st : List Cmd} (heq : Cmd.parseLoop [] current stack = .ok st) :
    ∀ c ∈ st, goodCmd c = true := by
  rw [Cmd.parseLoop] at heq
  simp only [Except.ok.injEq] at heq
  subst heq
  intro c hc
  by_cases he : current.isEmpty
  · rw [if_pos he] at hc; exact hstack c hc
  · rw [if_neg he] at hc
    rcases List.mem_append.mp hc with h | h
    · exact hstack c h
    · simp at h; subst h
      exact CmdSingle_good (Bool.of_not_eq_true he) hcur

theorem parse_parseLoop_good : ∀ n : Nat,
    (∀ args : List String, args.length ≤ n →
      ∀ t, Cmd.parse args = .ok t → goodCmd t = true) ∧
    (∀ (toks current : List String) (stack : List Cmd), toks.length ≤ n →
      (∀ a ∈ current, plainTok a = true) →
      (∀ c ∈ stack, goodCmd c = true) →
      ∀ st, Cmd.parseLoop toks current stack = .ok st →
        ∀ c ∈ st, goodCmd c = true) := by
  intro n
  induction n with
  | zero =>
    constructor
    · intro args hlen t ht
      have : args = [] := List.eq_nil_of_length_eq_zero (Nat.le_zero.mp hlen)
      subst this
      rw [Cmd.parse] at ht
      simp at ht
    · intro toks current stack hlen hcur hstack st heq
      have : toks = [] := List.eq_nil_of_length_eq_zero (Nat.le_zero.mp hlen)
      subst this
      exact parseLoop_nil_good hcur hstack heq
  | succ n ihn =>
    have hloop : ∀ (toks current : List String) (stack : List Cmd),
        toks.length ≤ n + 1 →
        (∀ a ∈ current, plainTok a = true) →
        (∀ c ∈ stack, goodCmd c = true) →
        ∀ st, Cmd.parseLoop toks current stack = .ok st →
          ∀ c ∈ st, goodCmd c = true := by
      intro toks current stack hlen hcur hstack st heq
      match toks, hlen with
      | [], _ => exact parseLoop_nil_good hcur hstack heq
      | arg :: rest, hlen =>
        have hrest : rest.length ≤ n := by simp at hlen; omega
        rw [Cmd.parseLoop] at heq
        by_cases h1 : arg = "("
        · rw [if_pos h1] at heq
          by_cases h2 : current.isEmpty
          · rw [if_neg (by simp [h2])] at heq
            split at heq
            · simp at heq
            · rename_i inner post hsp
              split at heq
              · simp at heq
              · rename_i node hpi
                have hsl := splitAtFirst_some_length hsp
                have hinner : inner.length ≤ n := by simp at hlen; omega
                have hpost : post.length ≤ n := by simp at hlen; omega
                have hnode : goodCmd node = true := ihn.1 inner hinner node hpi
                refine ihn.2 post current (stack ++ [node]) hpost hcur ?_ st heq
                intro c hc
                rcases List.mem_append.mp hc with h | h
                · exact hstack c h
                · simp at h; subst h; exact hnode
          · rw [if_pos (by simp [h2])] at heq
            simp at heq
        · rw [if_neg h1] at heq
          by_cases h3 : arg = "\x7b"
          · rw [if_pos h3] at heq
            by_cases h2 : current.isEmpty
            · rw [if_neg (by simp [h2])] at heq
              split at heq
              · simp at heq
              · rename_i inner post hsp
                split at heq
                · simp at heq
                · rename_i node hpi
                  have hsl := splitAtFirst_some_length hsp
                  have hinner : inner.length ≤ n := by simp at hlen; omega
                  have hpost : post.length ≤ n := by simp at hlen; omega
                  have hnode : goodCmd node = true := ihn.1 inner hinner node hpi
                  refine ihn.2 post current (stack ++ [node]) hpost hcur ?_ st heq
                  intro c hc
                  rcases List.mem_append.mp hc with h | h
                  · exact hstack c h
                  · simp at h; subst h; exact hnode
            · rw [if_pos (by simp [h2])] at heq
              simp at heq
          · rw [if_neg h3] at heq
            by_cases h4 : arg = ")" ∨ arg = "\x7d"
            · rw [if_pos h4] at heq; simp at heq
            · rw [if_neg h4] at heq
              by_cases h5 : arg = ";"
              · rw [if_pos h5] at heq
                refine ihn.2 rest [] _ hrest (by simp) ?_ st heq
                intro c hc
                rcases List.mem_append.mp hc with h | h
                · exact flushArgs_good hcur hstack c h
                · simp at h; subst h; exact goodCmd_seqn_nil
              · rw [if_neg h5] at heq
                by_cases h6 : arg = "||"
                · rw [if_pos h6] at heq
                  refine ihn.2 rest [] _ hrest (by simp) ?_ st heq
                  intro c hc
                  rcases List.mem_append.mp hc with h | h
                  · exact flushArgs_good hcur hstack c h
                  · simp at h; subst h; exact goodCmd_orn_nil
                · rw [if_neg h6] at heq
                  by_cases h7 : arg = "&&"
                  · rw [if_pos h7] at heq
                    refine ihn.2 rest [] _ hrest (by simp) ?_ st heq
                    intro c hc
                    rcases List.mem_append.mp hc with h | h
                    · exact flushArgs_good hcur hstack c h
                    · simp at h; subst h; exact goodCmd_andn_nil
                  · rw [if_neg h7] at heq
                    refine ihn.2 rest (current ++ [arg]) stack hrest ?_ hstack st heq
                    intro a ha
                    rcases List.mem_append.mp ha with h | h
                    · exact hcur a h
                    · simp at h; subst h
                      push_neg at h4
                      simp [plainTok, h1, h3, h4.1, h4.2, h5, h6, h7]
    refine ⟨?_, hloop⟩
    intro args hlen t ht
    rw [Cmd.parse] at ht
    by_cases hne : args.isEmpty
    · rw [if_pos hne] at ht; simp at ht
    · rw [if_neg hne] at ht
      split at ht
      · simp at ht
      · rename_i stack hpl
        have hstack : ∀ c ∈ stack, goodCmd c = true :=
          hloop args [] [] hlen (by simp) (by simp) stack hpl
        split at ht
        · simp at ht
        · rename_i run hgr
          simp only [Except.ok.injEq] at ht
          subst ht
          exact foldRun_good hstack (by rw [hgr]; exact List.mem_cons_self _ _)
        · rename_i r1 r2 rs hgr
          simp only [Except.ok.injEq] at ht
          subst ht
          apply CmdSequence_good
          intro c hc
          rw [List.mem_map] at hc
          obtain ⟨r, hr, rfl⟩ := hc
          exact foldRun_good hstack (by rw [hgr]; exact hr)

/-- The invariant carried by every successful parse. -/
theorem parse_goodCmd {args : List String} {t : Cmd}
    (h : Cmd.parse args = .ok t) : goodCmd t = true :=
  (parse_parseLoop_good args.length).1 args le_rfl t h

/-! ## Single-step unfolding of the parse loop -/

theorem plainTok_spec {s : String} (h : plainTok s = true) :
    s ≠ "(" ∧ s ≠ ")" ∧ s ≠ "\x7b" ∧ s ≠ "\x7d" ∧ s ≠ ";" ∧ s ≠ "||" ∧
      s ≠ "&&" := by
  refine ⟨?_, ?_, ?_, ?_, ?_, ?_, ?_⟩ <;>
    (intro he; subst he; exact absurd h (by decide))

theorem parseLoop_plain {a : String} (ha : plainTok a = true) :
    ∀ (rest current : List String) (stack : List Cmd),
      Cmd.parseLoop (a :: rest) current stack =
        Cmd.parseLoop rest (current ++ [a]) stack := by
  intro rest current stack
  obtain ⟨h1, h2, h3, h4, h5, h6, h7⟩ := plainTok_spec ha
  rw [Cmd.parseLoop, if_neg h1, if_neg h3, if_neg (by simp [h2, h4]),
    if_neg h5, if_neg h6, if_neg h7]

theorem parseLoop_semi :
    ∀ (rest current : List String) (stack : List Cmd),
      Cmd.parseLoop (";" :: rest) current stack =
        Cmd.parseLoop rest [] (flushArgs current stack ++ [.seqn []]) := by
  intro rest current stack
  rw [Cmd.parseLoop, if_neg (by decide), if_neg (by decide),
    if_neg (by decide), if_pos rfl]

theorem parseLoop_orTok :
    ∀ (rest current : List String) (stack : List Cmd),
      Cmd.parseLoop ("||" :: rest) current stack =
        Cmd.parseLoop rest [] (flushArgs current stack ++ [.orn []]) := by
  intro rest current stack
  rw [Cmd.parseLoop, if_neg (by decide), if_neg (by decide),
    if_neg (by decide), if_neg (by decide), if_pos rfl]

theorem parseLoop_andTok :
    ∀ (rest current : List String) (stack : List Cmd),
      Cmd.parseLoop ("&&" :: rest) current stack =
        Cmd.parseLoop rest [] (flushArgs current stack ++ [.andn []]) := by
  intro rest current stack
  rw [Cmd.parseLoop, if_neg (by decide), if_neg (by decide),
    if_neg (by decide), if_neg (by decide), if_neg (by decide), if_pos rfl]

/-! ## Claim theorems -/

/-- C7: in every tree returned by `Cmd.parse`, a `Sequence` never directly
contains a `Sequence`, an `And` never an `And`, an `Or` never an `Or`
(same-type nesting is flattened at construction); and
`parse [a, "&&", b, "&&", c]` yields the flattened
`And [Single a, Single b, Single c]` for plain tokens `a`, `b`, `c`. -/
theorem c7_same_type_flattening :
    (∀ (args : List String) (t : Cmd), Cmd.parse args = .ok t →
      noSameNest t = true) ∧
    (∀ a b c : String, plainTok a = true → plainTok b = true →
      plainTok c = true →
      Cmd.parse [a, "&&", b, "&&", c] =
        .ok (.andn [.single [a], .single [b], .single [c]])) := by
  constructor
  · intro args t h
    exact goodCmd_imp_noSameNest t (parse_goodCmd h)
  · intro a b c ha hb hc
    rw [Cmd.parse, if_neg (by simp), parseLoop_plain ha, parseLoop_andTok,
      parseLoop_plain hb, parseLoop_andTok, parseLoop_plain hc,
      Cmd.parseLoop]
    simp [flushArgs, CmdSingle, groupRuns, takeRun, foldRun, fold1,
      Cmd.append, CmdAnd, CmdOr, CmdSequence, andFlat, orFlat, seqFlat,
      Cmd.isSeqB]

/-- C7 witness: the flattening statement at concrete plain tokens, and the
invariant at a concretely parsed tree. -/
theorem c7_same_type_flattening_witness :
    noSameNest (.andn [.single ["x"], .single ["y"]]) = true ∧
    Cmd.parse ["x", "&&", "y", "&&", "z"] =
      .ok (.andn [.single ["x"], .single ["y"], .single ["z"]]) :=
  ⟨c7_same_type_flattening.1 ["x", "&&", "y"] _
    (by rw [Cmd.parse, if_neg (by simp), parseLoop_plain (by decide),
          parseLoop_andTok, parseLoop_plain (by decide), Cmd.parseLoop]
        simp [flushArgs, CmdSingle, groupRuns, takeRun, foldRun, fold1,
          Cmd.append, CmdAnd, CmdOr, CmdSequence, andFlat, orFlat, seqFlat,
          Cmd.isSeqB]),
   c7_same_type_flattening.2 "x" "y" "z" (by decide) (by decide) (by decide)⟩

/-- C9 counterexample: `parse ["&&"]` succeeds and returns `And[]`, a
non-`Single` node with an empty children list, contradicting the claimed
"length at least 1" invariant. -/
theorem c9_counterexample :
    Cmd.parse ["&&"] = .ok (.andn []) ∧
    childrenNonempty (.andn []) = false := by
  constructor
  · rw [Cmd.parse, if_neg (by simp), parseLoop_andTok, Cmd.parseLoop]
    simp [flushArgs, groupRuns, takeRun, foldRun, fold1, Cmd.isSeqB]
  · rw [childrenNonempty]
    simp

/-- C9 (amended): in every tree returned by a successful parse, every
`Single` node has a non-empty argument list; non-`Single` nodes, however,
can have empty children lists (see the counterexample). -/
theorem c9_singles_nonempty :
    ∀ (args : List String) (t : Cmd), Cmd.parse args = .ok t →
      singlesNonempty t = true := by
  intro args t h
  exact goodCmd_imp_singlesNonempty t (parse_goodCmd h)

/-- C9 witness: the amended invariant evaluated on a concrete parse. -/
theorem c9_singles_nonempty_witness :
    singlesNonempty (.single ["a"]) = true :=
  c9_singles_nonempty ["a"] (.single ["a"])
    (by rw [Cmd.parse, if_neg (by simp), parseLoop_plain (by decide),
          Cmd.parseLoop]
        simp [flushArgs, CmdSingle, groupRuns, takeRun, foldRun, fold1,
          Cmd.isSeqB])

/-- C8 counterexample: an input consisting only of the separator `";"` does
not fail with `EmptyCommand`: the separator pushes a marker node onto the
stack, so the stack is non-empty and the parse succeeds with `Sequence[]`. -/
theorem c8_counterexample :
    Cmd.parse [";"] = .ok (.seqn []) ∧
    Cmd.parse [";"] ≠ .error .emptyCommand := by
  have h : Cmd.parse [";"] = .ok (.seqn []) := by
    rw [Cmd.parse, if_neg (by simp), parseLoop_semi, Cmd.parseLoop]
    simp [flushArgs, groupRuns, takeRun, foldRun, fold1, Cmd.isSeqB]
  exact ⟨h, by rw [h]; simp⟩

/-- C8 (amended): `parse []` fails with `EmptyCommand`, and the listed
bracket examples fail as claimed; but a non-empty input consisting only of
separator tokens does not fail — it returns an empty compound node. -/
theorem c8_parse_errors :
    Cmd.parse ([] : List String) = .error .emptyCommand ∧
    Cmd.parse ["a", ";", "("] = .error .unmatchedBracket ∧
    Cmd.parse ["a", "("] = .error .unexpectedToken ∧
    Cmd.parse ["a", ")"] = .error .unmatchedBracket ∧
    Cmd.parse [";"] = .ok (.seqn []) ∧
    Cmd.parse ["&&"] = .ok (.andn []) ∧
    Cmd.parse ["||"] = .ok (.orn []) := by
  refine ⟨?_, ?_, ?_, ?_, ?_, ?_, ?_⟩
  · rw [Cmd.parse]; simp
  · rw [Cmd.parse, if_neg (by simp), parseLoop_plain (by decide),
      parseLoop_semi, Cmd.parseLoop]
    simp [splitAtFirst]
  · rw [Cmd.parse, if_neg (by simp), parseLoop_plain (by decide),
      Cmd.parseLoop]
    simp
  · rw [Cmd.parse, if_neg (by simp), parseLoop_plain (by decide),
      Cmd.parseLoop]
    simp
  · rw [Cmd.parse, if_neg (by simp), parseLoop_semi, Cmd.parseLoop]
    simp [flushArgs, groupRuns, takeRun, foldRun, fold1, Cmd.isSeqB]
  · rw [Cmd.parse, if_neg (by simp), parseLoop_andTok, Cmd.parseLoop]
    simp [flushArgs, groupRuns, takeRun, foldRun, fold1, Cmd.isSeqB]
  · rw [Cmd.parse, if_neg (by simp), parseLoop_orTok, Cmd.parseLoop]
    simp [flushArgs, groupRuns, takeRun, foldRun, fold1, Cmd.isSeqB]

/-- C10: executing an empty compound node fails with the `IndexError` of
`results[-1]` for every runner, directory, `check` and `capture` setting,
instead of returning a result; and such empty compound nodes are reachable
from `parse` on separator-only input. -/
theorem c10_empty_compound_execute :
    ∀ (runner : Runner) (cwd : String) (check capture : Bool)
      (log : SpawnLog),
      Cmd.execute runner cwd check capture (.seqn []) log =
        (.error .indexOutOfRange, log) ∧
      Cmd.execute runner cwd check capture (.andn []) log =
        (.error .indexOutOfRange, log) ∧
      Cmd.execute runner cwd check capture (.orn []) log =
        (.error .indexOutOfRange, log) ∧
      Cmd.parse [";"] = .ok (.seqn []) ∧
      Cmd.parse ["&&"] = .ok (.andn []) ∧
      Cmd.parse ["||"] = .ok (.orn []) := by
  intro runner cwd check capture log
  refine ⟨?_, ?_, ?_, ?_, ?_, ?_⟩
  · rw [Cmd.execute, execAll]; simp
  · rw [Cmd.execute, execAnd]; simp
  · rw [Cmd.execute, execOr]; simp
  · rw [Cmd.parse, if_neg (by simp), parseLoop_semi, Cmd.parseLoop]
    simp [flushArgs, groupRuns, takeRun, foldRun, fold1, Cmd.isSeqB]
  · rw [Cmd.parse, if_neg (by simp), parseLoop_andTok, Cmd.parseLoop]
    simp [flushArgs, groupRuns, takeRun, foldRun, fold1, Cmd.isSeqB]
  · rw [Cmd.parse, if_neg (by simp), parseLoop_orTok, Cmd.parseLoop]
    simp [flushArgs, groupRuns, takeRun, foldRun, fold1, Cmd.isSeqB]

/-- A concrete process runner: the command `["false"]` exits with code 1,
anything else exits with code 0; nothing is printed. -/
def demoRunner : Runner := fun _ _ args =>
  if args = ["false"] then (1, "", "") else (0, "", "")

/-- C3: with `check=true`, `CmdSingle.execute` passes `check` to
`subprocess.run`, which raises `CalledProcessError` at the first failing
child, so `CmdOr` never reaches the later succeeding alternative: executing
`Or[false, true]` with `check=true` aborts with the error after spawning
only the first child, rather than returning an exit-code-0 result.  With
`check=false` the same tree does absorb the failure and returns exit code
0, which matches the claimed (and documented) behaviour. -/
theorem c3_check_true_breaks_or :
    Cmd.execute demoRunner "repo" true false
        (.orn [.single ["false"], .single ["true"]]) [] =
      (.error .calledProcess, [["false"]]) ∧
    Cmd.execute demoRunner "repo" false false
        (.orn [.single ["false"], .single ["true"]]) [] =
      (.ok ⟨0, none, none⟩, [["false"], ["true"]]) := by
  constructor <;>
    simp [Cmd.execute, execOr, demoRunner, combineResult, joinStdout,
      joinStderr, sepMarker]

/-- C1: for plain tokens `a`, `b`, `c`, mixed `&&`/`||` at one nesting level
nests on the right and never flattens across types:
`parse [a, "&&", b, "||", c]` is `And[Single a, Or[Single b, Single c]]` and
`parse [a, "||", b, "&&", c]` is `Or[Single a, And[Single b, Single c]]`. -/
theorem c1_mixed_operator_nesting (a b c : String)
    (ha : plainTok a = true) (hb : plainTok b = true)
    (hc : plainTok c = true) :
    Cmd.parse [a, "&&", b, "||", c] =
      .ok (.andn [.single [a], .orn [.single [b], .single [c]]]) ∧
    Cmd.parse [a, "||", b, "&&", c] =
      .ok (.orn [.single [a], .andn [.single [b], .single [c]]]) := by
  constructor
  · rw [Cmd.parse, if_neg (by simp), parseLoop_plain ha, parseLoop_andTok,
      parseLoop_plain hb, parseLoop_orTok, parseLoop_plain hc,
      Cmd.parseLoop]
    simp [flushArgs, CmdSingle, groupRuns, takeRun, foldRun, fold1,
      Cmd.append, CmdAnd, CmdOr, CmdSequence, andFlat, orFlat, seqFlat,
      Cmd.isSeqB]
  · rw [Cmd.parse, if_neg (by simp), parseLoop_plain ha, parseLoop_orTok,
      parseLoop_plain hb, parseLoop_andTok, parseLoop_plain hc,
      Cmd.parseLoop]
    simp [flushArgs, CmdSingle, groupRuns, takeRun, foldRun, fold1,
      Cmd.append, CmdAnd, CmdOr, CmdSequence, andFlat, orFlat, seqFlat,
      Cmd.isSeqB]

/-- C1 witness: the statement at the concrete plain tokens `a`, `b`, `c`. -/
theorem c1_mixed_operator_nesting_witness :
    Cmd.parse ["a", "&&", "b", "||", "c"] =
      .ok (.andn [.single ["a"], .orn [.single ["b"], .single ["c"]]]) ∧
    Cmd.parse ["a", "||", "b", "&&", "c"] =
      .ok (.orn [.single ["a"], .andn [.single ["b"], .single ["c"]]]) :=
  c1_mixed_operator_nesting "a" "b" "c" (by decide) (by decide) (by decide)

/-! ## Bracket handling -/

theorem parseLoop_openParen {inner : List String} (hni : ")" ∉ inner) :
    ∀ (post : List String) (stack : List Cmd),
      Cmd.parseLoop ("(" :: (inner ++ ")" :: post)) [] stack =
        match Cmd.parse inner with
        | .error e => .error e
        | .ok node => Cmd.parseLoop post [] (stack ++ [node]) := by
  intro post stack
  rw [Cmd.parseLoop, if_pos rfl, if_neg (by simp)]
  split
  · rename_i h
    rw [splitAtFirst_append hni post] at h
    simp at h
  · rename_i inner1 post1 h
    rw [splitAtFirst_append hni post] at h
    simp at h
    obtain ⟨h1, h2⟩ := h
    subst h1; subst h2
    rfl

theorem parseLoop_openBrace {inner : List String} (hni : "\x7d" ∉ inner) :
    ∀ (post : List String) (stack : List Cmd),
      Cmd.parseLoop ("\x7b" :: (inner ++ "\x7d" :: post)) [] stack =
        match Cmd.parse inner with
        | .error e => .error e
        | .ok node => Cmd.parseLoop post [] (stack ++ [node]) := by
  intro post stack
  rw [Cmd.parseLoop, if_neg (by decide), if_pos rfl, if_neg (by simp)]
  split
  · rename_i h
    rw [splitAtFirst_append hni post] at h
    simp at h
  · rename_i inner1 post1 h
    rw [splitAtFirst_append hni post] at h
    simp at h
    obtain ⟨h1, h2⟩ := h
    subst h1; subst h2
    rfl

theorem parseLoop_all_plain {toks : List String}
    (h : ∀ a ∈ toks, plainTok a = true) :
    ∀ (current : List String) (stack : List Cmd),
      Cmd.parseLoop toks current stack =
        .ok (if (current ++ toks).isEmpty then stack
             else stack ++ [CmdSingle (current ++ toks)]) := by
  induction toks with
  | nil => intro current stack; rw [Cmd.parseLoop]; simp
  | cons a toks ih =>
    intro current stack
    rw [parseLoop_plain (h a (List.mem_cons_self _ _)),
      ih fun x hx => h x (List.mem_cons_of_mem _ hx)]
    simp

/-- Parsing a non-empty list of plain tokens yields one `Single`. -/
theorem parse_plain_tokens {toks : List String} (hne : toks ≠ [])
    (h : ∀ a ∈ toks, plainTok a = true) :
    Cmd.parse toks = .ok (.single toks) := by
  rw [Cmd.parse, if_neg (by simp [hne]), parseLoop_all_plain h]
  simp [hne, CmdSingle, groupRuns, takeRun, foldRun, fold1, Cmd.isSeqB]

theorem splitAtFirst_some_eq {tok : String} :
    ∀ {xs pre post : List String}, splitAtFirst tok xs = some (pre, post) →
      xs = pre ++ tok :: post := by
  intro xs
  induction xs with
  | nil => intro pre post h; simp [splitAtFirst] at h
  | cons x xs ih =>
    intro pre post h
    by_cases hx : x = tok
    · simp [splitAtFirst, hx] at h
      obtain ⟨h1, h2⟩ := h
      subst h1; subst h2; simp [hx]
    · simp only [splitAtFirst, if_neg hx] at h
      rcases hsp : splitAtFirst tok xs with _ | ⟨pre', post'⟩
      · rw [hsp] at h; simp at h
      · rw [hsp] at h
        simp at h
        obtain ⟨h1, h2⟩ := h
        subst h1; subst h2
        simp [ih hsp]

theorem parseLoop_openParen_unmatched {rest : List String}
    (h : ")" ∉ rest) :
    ∀ stack : List Cmd,
      Cmd.parseLoop ("(" :: rest) [] stack = .error .unmatchedBracket := by
  intro stack
  rw [Cmd.parseLoop, if_pos rfl, if_neg (by simp)]
  split
  · rfl
  · rename_i inner1 post1 hsp
    exact absurd (splitAtFirst_some_eq hsp ▸ (by simp : ")" ∈ inner1 ++ ")" :: post1)) h

/-- C2 counterexample: a parenthesised group nested directly inside another
parenthesised group is rejected: the parser pairs the outer `(` with the
*first* `)` and recursively parses `["a", "(", "b"]`, failing with
`UnexpectedToken` rather than returning the claimed nested tree. -/
theorem c2_counterexample :
    Cmd.parse ["(", "a", "(", "b", ")", ")"] = .error .unexpectedToken := by
  have hp : Cmd.parse ["a", "(", "b"] = .error .unexpectedToken := by
    rw [Cmd.parse, if_neg (by simp), parseLoop_plain (by decide),
      Cmd.parseLoop, if_pos rfl, if_pos (by simp)]
  rw [Cmd.parse, if_neg (by simp)]
  rw [show (["(", "a", "(", "b", ")", ")"] : List String) =
    "(" :: (["a", "(", "b"] ++ ")" :: [")"]) from rfl]
  rw [parseLoop_openParen (by decide) [")"] [], hp]

/-- C2 (amended): the parser pairs each opening bracket with the *first*
close bracket of the same kind in the remaining input, not with the
structurally matching one.  Consequently groups of *different* bracket kinds
nest (`["(", "\x7b", b, "\x7d", ")"]` parses), while a group of one kind directly
inside a group of the same kind fails (`["(", "(", b, ")", ")"]` fails with
`UnmatchedBracket` because the truncated inner group loses its close
bracket). -/
theorem c2_first_close_bracket_pairing :
    (∀ (inner post : List String) (stack : List Cmd), ")" ∉ inner →
      Cmd.parseLoop ("(" :: (inner ++ ")" :: post)) [] stack =
        match Cmd.parse inner with
        | .error e => .error e
        | .ok node => Cmd.parseLoop post [] (stack ++ [node])) ∧
    (∀ b : String, plainTok b = true →
      Cmd.parse ["(", "\x7b", b, "\x7d", ")"] = .ok (.single [b]) ∧
      Cmd.parse ["(", "(", b, ")", ")"] = .error .unmatchedBracket) := by
  constructor
  · intro inner post stack hni
    exact parseLoop_openParen hni post stack
  · intro b hb
    obtain ⟨hb1, hb2, hb3, hb4, hb5, hb6, hb7⟩ := plainTok_spec hb
    constructor
    · have hpin : Cmd.parse ["\x7b", b, "\x7d"] = .ok (.single [b]) := by
        rw [Cmd.parse, if_neg (by simp)]
        rw [show ("\x7b" :: b :: "\x7d" :: [] : List String) =
          "\x7b" :: ([b] ++ "\x7d" :: []) from rfl]
        rw [parseLoop_openBrace (by
          intro hmem; simp at hmem; exact hb4 hmem.symm) [] []]
        rw [parse_plain_tokens (by simp) (by
          intro x hx; simp at hx; subst hx; exact hb)]
        simp [Cmd.parseLoop, groupRuns, takeRun, foldRun, fold1, Cmd.isSeqB]
      rw [Cmd.parse, if_neg (by simp)]
      rw [show (["(", "\x7b", b, "\x7d", ")"] : List String) =
        "(" :: (["\x7b", b, "\x7d"] ++ ")" :: []) from rfl]
      rw [parseLoop_openParen (by
        intro hmem; simp at hmem; exact hb2 hmem.symm) [] [], hpin]
      simp [Cmd.parseLoop, groupRuns, takeRun, foldRun, fold1, Cmd.isSeqB]
    · have hpp : Cmd.parse ["(", b] = .error .unmatchedBracket := by
        rw [Cmd.parse, if_neg (by simp), parseLoop_openParen_unmatched (by
          intro hmem; simp at hmem; exact hb2 hmem.symm)]
      rw [Cmd.parse, if_neg (by simp)]
      rw [show (["(", "(", b, ")", ")"] : List String) =
        "(" :: (["(", b] ++ ")" :: [")"]) from rfl]
      rw [parseLoop_openParen (by
        intro hmem; simp at hmem; exact hb2 hmem.symm) [")"] [], hpp]

/-- C2 witness: the amended statement instantiated at concrete input. -/
theorem c2_first_close_bracket_pairing_witness :
    Cmd.parseLoop ["(", "x", ")"] [] [] =
      (match Cmd.parse ["x"] with
       | .error e => .error e
       | .ok node => Cmd.parseLoop [] [] ([] ++ [node])) ∧
    Cmd.parse ["(", "\x7b", "b", "\x7d", ")"] = .ok (.single ["b"]) :=
  ⟨c2_first_close_bracket_pairing.1 ["x"] [] [] (by decide),
   (c2_first_close_bracket_pairing.2 "b" (by decide)).1⟩

/-! ## Execution order and short-circuiting -/

/-- `RunChildren runner cwd check capture cs log rs log'`: executing the
children `cs` one after another starting from spawn log `log` succeeds,
yielding the results `rs` (one per child, in order) and final log `log'`.
This is the observable "the children were executed, in this order". -/
inductive RunChildren (runner : Runner) (cwd : String) (check capture : Bool) :
    List Cmd → SpawnLog → List CmdResult → SpawnLog → Prop
  | nil (log : SpawnLog) : RunChildren runner cwd check capture [] log [] log
  | cons {c : Cmd} {cs : List Cmd} {log log₁ log₂ : SpawnLog} {r : CmdResult}
      {rs : List CmdResult} :
      Cmd.execute runner cwd check capture c log = (.ok r, log₁) →
      RunChildren runner cwd check capture cs log₁ rs log₂ →
      RunChildren runner cwd check capture (c :: cs) log (r :: rs) log₂

theorem execAll_total {runner : Runner} {cwd : String} {check capture : Bool} :
    ∀ {cs : List Cmd},
      (∀ c ∈ cs, ∀ log, ∃ r log',
        Cmd.execute runner cwd check capture c log = (.ok r, log')) →
      ∀ log, ∃ rs log',
        execAll runner cwd check capture cs log = (.ok rs, log') ∧
        RunChildren runner cwd check capture cs log rs log' ∧
        rs.length = cs.length := by
  intro cs
  induction cs with
  | nil =>
    intro _ log
    exact ⟨[], log, by rw [execAll], RunChildren.nil log, rfl⟩
  | cons c cs ih =>
    intro htot log
    obtain ⟨r, log₁, hc⟩ := htot c (List.mem_cons_self _ _) log
    obtain ⟨rs, log₂, hAll, hrun, hlen⟩ :=
      ih (fun x hx => htot x (List.mem_cons_of_mem _ hx)) log₁
    refine ⟨r :: rs, log₂, ?_, RunChildren.cons hc hrun, by simp [hlen]⟩
    rw [execAll, hc]
    simp [hAll]

theorem exec_total (runner : Runner) (cwd : String) (capture : Bool) :
    ∀ c : Cmd, childrenNonempty c = true → ∀ log,
      ∃ r log', Cmd.execute runner cwd false capture c log = (.ok r, log') := by
  apply cmdInd (fun c => childrenNonempty c = true → ∀ log,
    ∃ r log', Cmd.execute runner cwd false capture c log = (.ok r, log'))
  · intro args _ log
    refine ⟨⟨(runner log.length cwd args).1,
      if capture then some (runner log.length cwd args).2.1 else none,
      if capture then some (runner log.length cwd args).2.2 else none⟩,
      log ++ [args], ?_⟩
    rw [Cmd.execute]
    simp
  · intro cs ih hg log
    obtain ⟨hne, hch⟩ := childrenNonempty_seqn.mp hg
    obtain ⟨rs, log', hAll, _, hlen⟩ :=
      execAll_total (fun c hc => ih c hc (hch c hc)) log
    have hrs : rs ≠ [] := by
      intro h; subst h
      exact hne (List.eq_nil_of_length_eq_zero hlen.symm)
    refine ⟨combineResult capture (rs.getLast hrs) rs, log', ?_⟩
    rw [Cmd.execute, hAll]
    simp [List.getLast?_eq_getLast rs hrs]
  · intro cs ih hg log
    obtain ⟨hne, hch⟩ := childrenNonempty_andn.mp hg
    obtain ⟨rs, log', hAnd, hrs⟩ :
        ∃ rs log', execAnd runner cwd false capture cs log = (.ok rs, log') ∧
          rs ≠ [] := by
      clear hg
      induction cs generalizing log with
      | nil => exact absurd rfl hne
      | cons c cs ihl =>
        obtain ⟨r, log₁, hc⟩ :=
          ih c (List.mem_cons_self _ _) (hch c (List.mem_cons_self _ _)) log
        by_cases hz : r.exit_code ≠ 0
        · refine ⟨[r], log₁, ?_, by simp⟩
          rw [execAnd, hc]
          simp [hz]
        · rcases cs with _ | ⟨c2, cs'⟩
          · refine ⟨[r], log₁, ?_, by simp⟩
            rw [execAnd, hc]
            simp [hz, execAnd]
          · obtain ⟨rs', log₂, hAnd', hne'⟩ := ihl
              (fun x hx => ih x (List.mem_cons_of_mem _ hx)) log₁
              (by simp)
              (fun x hx => hch x (List.mem_cons_of_mem _ hx))
            refine ⟨r :: rs', log₂, ?_, by simp⟩
            rw [execAnd, hc]
            simp [hz, hAnd']
    refine ⟨combineResult capture (rs.getLast hrs) rs, log', ?_⟩
    rw [Cmd.execute, hAnd]
    simp [List.getLast?_eq_getLast rs hrs]
  · intro cs ih hg log
    obtain ⟨hne, hch⟩ := childrenNonempty_orn.mp hg
    obtain ⟨rs, log', hOr, hrs⟩ :
        ∃ rs log', execOr runner cwd false capture cs log = (.ok rs, log') ∧
          rs ≠ [] := by
      clear hg
      induction cs generalizing log with
      | nil => exact absurd rfl hne
      | cons c cs ihl =>
        obtain ⟨r, log₁, hc⟩ :=
          ih c (List.mem_cons_self _ _) (hch c (List.mem_cons_self _ _)) log
        by_cases hz : r.exit_code = 0
        · refine ⟨[r], log₁, ?_, by simp⟩
          rw [execOr, hc]
          simp [hz]
        · rcases cs with _ | ⟨c2, cs'⟩
          · refine ⟨[r], log₁, ?_, by simp⟩
            rw [execOr, hc]
            simp [hz, execOr]
          · obtain ⟨rs', log₂, hOr', hne'⟩ := ihl
              (fun x hx => ih x (List.mem_cons_of_mem _ hx)) log₁
              (by simp)
              (fun x hx => hch x (List.mem_cons_of_mem _ hx))
            refine ⟨r :: rs', log₂, ?_, by simp⟩
            rw [execOr, hc]
            simp [hz, hOr']
    refine ⟨combineResult capture (rs.getLast hrs) rs, log', ?_⟩
    rw [Cmd.execute, hOr]
    simp [List.getLast?_eq_getLast rs hrs]

theorem execAnd_spec {runner : Runner} {cwd : String} {capture : Bool} :
    ∀ {cs : List Cmd}, cs ≠ [] →
      (∀ c ∈ cs, ∀ log, ∃ r log',
        Cmd.execute runner cwd false capture c log = (.ok r, log')) →
      ∀ log, ∃ (p : List Cmd) (rs : List CmdResult) (log' : SpawnLog)
        (last : CmdResult),
        p <+: cs ∧ p ≠ [] ∧
        RunChildren runner cwd false capture p log rs log' ∧
        rs.getLast? = some last ∧
        (∀ r ∈ rs.dropLast, r.exit_code = 0) ∧
        (p.length = cs.length ∨ last.exit_code ≠ 0) ∧
        execAnd runner cwd false capture cs log = (.ok rs, log') := by
  intro cs
  induction cs with
  | nil => intro h; exact absurd rfl h
  | cons c cs ih =>
    intro _ htot log
    obtain ⟨r, log₁, hc⟩ := htot c (List.mem_cons_self _ _) log
    by_cases hz : r.exit_code = 0
    · rcases cs with _ | ⟨c2, cs'⟩
      · refine ⟨[c], [r], log₁, r, ⟨[], rfl⟩, by simp,
          RunChildren.cons hc (RunChildren.nil _), by simp, by simp, by simp, ?_⟩
        rw [execAnd, hc]
        simp [hz, execAnd]
      · obtain ⟨p', rs', log'', last', hpre', hpne', hrun', hlast', hdrop',
          hor', hAnd'⟩ := ih (by simp)
          (fun x hx => htot x (List.mem_cons_of_mem _ hx)) log₁
        have hrs' : rs' ≠ [] := by
          intro h; subst h; simp at hlast'
        rcases rs' with _ | ⟨r2, rs''⟩
        · exact absurd rfl hrs'
        · obtain ⟨t, ht⟩ := hpre'
          refine ⟨c :: p', r :: r2 :: rs'', log'', last',
            ⟨t, by simp [ht]⟩, by simp, RunChildren.cons hc hrun', ?_, ?_, ?_, ?_⟩
          · rw [List.getLast?_cons_cons]; exact hlast'
          · intro x hx
            rw [List.dropLast_cons₂] at hx
            rcases List.mem_cons.mp hx with h | h
            · subst h; exact hz
            · exact hdrop' x h
          · rcases hor' with h | h
            · left; simp at h ⊢; omega
            · right; exact h
          · rw [execAnd, hc]
            simp [hz, hAnd']
    · refine ⟨[c], [r], log₁, r, ⟨cs, rfl⟩, by simp,
        RunChildren.cons hc (RunChildren.nil _), by simp, by simp, Or.inr hz, ?_⟩
      rw [execAnd, hc]
      simp [hz]

theorem execOr_spec {runner : Runner} {cwd : String} {capture : Bool} :
    ∀ {cs : List Cmd}, cs ≠ [] →
      (∀ c ∈ cs, ∀ log, ∃ r log',
        Cmd.execute runner cwd false capture c log = (.ok r, log')) →
      ∀ log, ∃ (p : List Cmd) (rs : List CmdResult) (log' : SpawnLog)
        (last : CmdResult),
        p <+: cs ∧ p ≠ [] ∧
        RunChildren runner cwd false capture p log rs log' ∧
        rs.getLast? = some last ∧
        (∀ r ∈ rs.dropLast, r.exit_code ≠ 0) ∧
        (p.length = cs.length ∨ last.exit_code = 0) ∧
        execOr runner cwd false capture cs log = (.ok rs, log') := by
  intro cs
  induction cs with
  | nil => intro h; exact absurd rfl h
  | cons c cs ih =>
    intro _ htot log
    obtain ⟨r, log₁, hc⟩ := htot c (List.mem_cons_self _ _) log
    by_cases hz : r.exit_code = 0
    · refine ⟨[c], [r], log₁, r, ⟨cs, rfl⟩, by simp,
        RunChildren.cons hc (RunChildren.nil _), by simp, by simp, Or.inr hz, ?_⟩
      rw [execOr, hc]
      simp [hz]
    · rcases cs with _ | ⟨c2, cs'⟩
      · refine ⟨[c], [r], log₁, r, ⟨[], rfl⟩, by simp,
          RunChildren.cons hc (RunChildren.nil _), by simp, by simp, by simp, ?_⟩
        rw [execOr, hc]
        simp [hz, execOr]
      · obtain ⟨p', rs', log'', last', hpre', hpne', hrun', hlast', hdrop',
          hor', hOr'⟩ := ih (by simp)
          (fun x hx => htot x (List.mem_cons_of_mem _ hx)) log₁
        have hrs' : rs' ≠ [] := by
          intro h; subst h; simp at hlast'
        rcases rs' with _ | ⟨r2, rs''⟩
        · exact absurd rfl hrs'
        · obtain ⟨t, ht⟩ := hpre'
          refine ⟨c :: p', r :: r2 :: rs'', log'', last',
            ⟨t, by simp [ht]⟩, by simp, RunChildren.cons hc hrun', ?_, ?_, ?_, ?_⟩
          · rw [List.getLast?_cons_cons]; exact hlast'
          · intro x hx
            rw [List.dropLast_cons₂] at hx
            rcases List.mem_cons.mp hx with h | h
            · subst h; exact hz
            · exact hdrop' x h
          · rcases hor' with h | h
            · left; simp at h ⊢; omega
            · right; exact h
          · rw [execOr, hc]
            simp [hz, hOr']

/-- C4: with `check=false`, an `And` node executes its children in order,
stopping after the first child with a non-zero exit code, and the result
mirrors the last executed child (the executed children `p` are a non-empty
prefix of the children list, all results before the last are zero, the
prefix is either the whole list or ends at a failing child, and the exit
code of the returned result is the last executed child's); dually, an `Or`
node stops after the first child with exit code zero.  The children are
assumed to be executable (no empty compound nodes, cf. C10). -/
theorem c4_and_or_stop_conditions (runner : Runner) (cwd : String)
    (capture : Bool) (cs : List Cmd) (log : SpawnLog)
    (hne : cs ≠ []) (hg : ∀ c ∈ cs, childrenNonempty c = true) :
    (∃ p rs log' last,
      p <+: cs ∧ p ≠ [] ∧
      RunChildren runner cwd false capture p log rs log' ∧
      rs.getLast? = some last ∧
      (∀ r ∈ rs.dropLast, r.exit_code = 0) ∧
      (p.length = cs.length ∨ last.exit_code ≠ 0) ∧
      Cmd.execute runner cwd false capture (.andn cs) log =
        (.ok (combineResult capture last rs), log') ∧
      (combineResult capture last rs).exit_code = last.exit_code) ∧
    (∃ p rs log' last,
      p <+: cs ∧ p ≠ [] ∧
      RunChildren runner cwd false capture p log rs log' ∧
      rs.getLast? = some last ∧
      (∀ r ∈ rs.dropLast, r.exit_code ≠ 0) ∧
      (p.length = cs.length ∨ last.exit_code = 0) ∧
      Cmd.execute runner cwd false capture (.orn cs) log =
        (.ok (combineResult capture last rs), log') ∧
      (combineResult capture last rs).exit_code = last.exit_code) := by
  have htot : ∀ c ∈ cs, ∀ l, ∃ r l',
      Cmd.execute runner cwd false capture c l = (.ok r, l') :=
    fun c hc => exec_total runner cwd capture c (hg c hc)
  constructor
  · obtain ⟨p, rs, log', last, h1, h2, h3, h4, h5, h6, h7⟩ :=
      execAnd_spec hne htot log
    refine ⟨p, rs, log', last, h1, h2, h3, h4, h5, h6, ?_, rfl⟩
    rw [Cmd.execute, h7]
    simp [h4]
  · obtain ⟨p, rs, log', last, h1, h2, h3, h4, h5, h6, h7⟩ :=
      execOr_spec hne htot log
    refine ⟨p, rs, log', last, h1, h2, h3, h4, h5, h6, ?_, rfl⟩
    rw [Cmd.execute, h7]
    simp [h4]

/-- C4 witness: the statement at a concrete one-child `And`/`Or`. -/
theorem c4_and_or_stop_conditions_witness :
    (∃ p rs log' last,
      p <+: [Cmd.single ["x"]] ∧ p ≠ [] ∧
      RunChildren demoRunner "d" false false p [] rs log' ∧
      rs.getLast? = some last ∧
      (∀ r ∈ rs.dropLast, r.exit_code = 0) ∧
      (p.length = [Cmd.single ["x"]].length ∨ last.exit_code ≠ 0) ∧
      Cmd.execute demoRunner "d" false false (.andn [Cmd.single ["x"]]) [] =
        (.ok (combineResult false last rs), log') ∧
      (combineResult false last rs).exit_code = last.exit_code) ∧
    (∃ p rs log' last,
      p <+: [Cmd.single ["x"]] ∧ p ≠ [] ∧
      RunChildren demoRunner "d" false false p [] rs log' ∧
      rs.getLast? = some last ∧
      (∀ r ∈ rs.dropLast, r.exit_code ≠ 0) ∧
      (p.length = [Cmd.single ["x"]].length ∨ last.exit_code = 0) ∧
      Cmd.execute demoRunner "d" false false (.orn [Cmd.single ["x"]]) [] =
        (.ok (combineResult false last rs), log') ∧
      (combineResult false last rs).exit_code = last.exit_code) :=
  c4_and_or_stop_conditions demoRunner "d" false [Cmd.single ["x"]] []
    (by simp)
    (by intro c hc; simp at hc; subst hc; simp [childrenNonempty])

/-- C5: with `check=false`, a `Sequence` node executes every child in order
unconditionally (one result per child), the returned exit code is the last
child's, and when `capture=true` the stdout (resp. stderr) is the
concatenation of every child's stdout (resp. stderr) joined with the fixed
separator `"\n######\n"`, in order.  The children are assumed executable
(no empty compound nodes, cf. C10). -/
theorem c5_sequence_runs_all (runner : Runner) (cwd : String)
    (capture : Bool) (cs : List Cmd) (log : SpawnLog)
    (hne : cs ≠ []) (hg : ∀ c ∈ cs, childrenNonempty c = true) :
    ∃ rs log' last,
      RunChildren runner cwd false capture cs log rs log' ∧
      rs.length = cs.length ∧
      rs.getLast? = some last ∧
      Cmd.execute runner cwd false capture (.seqn cs) log =
        (.ok ⟨last.exit_code,
          if capture then some (joinStdout rs) else none,
          if capture then some (joinStderr rs) else none⟩, log') := by
  have htot : ∀ c ∈ cs, ∀ l, ∃ r l',
      Cmd.execute runner cwd false capture c l = (.ok r, l') :=
    fun c hc => exec_total runner cwd capture c (hg c hc)
  obtain ⟨rs, log', hAll, hrun, hlen⟩ := execAll_total htot log
  have hrs : rs ≠ [] := by
    intro h; subst h
    exact hne (List.eq_nil_of_length_eq_zero hlen.symm)
  refine ⟨rs, log', rs.getLast hrs, hrun, hlen,
    List.getLast?_eq_getLast rs hrs, ?_⟩
  rw [Cmd.execute, hAll]
  simp [List.getLast?_eq_getLast rs hrs, combineResult]

/-- C5 witness: the statement at a concrete two-child `Sequence` whose first
child fails, with capture on. -/
theorem c5_sequence_runs_all_witness :
    ∃ rs log' last,
      RunChildren demoRunner "d" false true
        [Cmd.single ["false"], Cmd.single ["x"]] [] rs log' ∧
      rs.length = [Cmd.single ["false"], Cmd.single ["x"]].length ∧
      rs.getLast? = some last ∧
      Cmd.execute demoRunner "d" false true
          (.seqn [Cmd.single ["false"], Cmd.single ["x"]]) [] =
        (.ok (⟨last.exit_code,
          if true then some (joinStdout rs) else none,
          if true then some (joinStderr rs) else none⟩ : CmdResult), log') :=
  c5_sequence_runs_all demoRunner "d" true
    [Cmd.single ["false"], Cmd.single ["x"]] [] (by simp)
    (by intro c hc
        rcases List.mem_cons.mp hc with h | h
        · subst h; simp [childrenNonempty]
        · simp at h; subst h; simp [childrenNonempty])

/-! ## Round-tripping render and parse -/

/-- Whether a node is a `CmdSingle`. -/
def Cmd.isSingleB : Cmd → Bool
  | .single _ => true
  | _ => false

/-- The flat shape on which the render/parse round trip holds: a `Single`,
or a compound node with at least two children, all of them `Single`s. -/
def flatShape : Cmd → Bool
  | .single _ => true
  | .seqn cs => 2 ≤ cs.length && cs.all Cmd.isSingleB
  | .andn cs => 2 ≤ cs.length && cs.all Cmd.isSingleB
  | .orn cs => 2 ≤ cs.length && cs.all Cmd.isSingleB

/-- The stack the parse loop builds from a rendered flat group: the children
interleaved with the marker node `m` of the group's separator. -/
def interMark (m : Cmd) : List Cmd → List Cmd
  | [] => []
  | [c] => [c]
  | c :: c₂ :: cs => c :: m :: interMark m (c₂ :: cs)

theorem interMark_mem {m : Cmd} :
    ∀ {cs : List Cmd} {x : Cmd}, x ∈ interMark m cs → x = m ∨ x ∈ cs := by
  intro cs
  induction cs with
  | nil => intro x hx; simp [interMark] at hx
  | cons c cs ih =>
    intro x hx
    rcases cs with _ | ⟨c₂, cs'⟩
    · simp [interMark] at hx
      subst hx; right; exact List.mem_cons_self _ _
    · rw [interMark] at hx
      rcases List.mem_cons.mp hx with h | h
      · subst h; right; exact List.mem_cons_self _ _
      · rcases List.mem_cons.mp h with h' | h'
        · left; exact h'
        · rcases ih h' with h'' | h''
          · left; exact h''
          · right; exact List.mem_cons_of_mem _ h''

theorem takeRun_false_all :
    ∀ {xs : List Cmd}, (∀ x ∈ xs, x.isSeqB = false) →
      takeRun false xs = (xs, []) := by
  intro xs
  induction xs with
  | nil => intro _; rfl
  | cons x xs ih =>
    intro h
    rw [takeRun, if_pos (h x (List.mem_cons_self _ _)),
      ih fun y hy => h y (List.mem_cons_of_mem _ hy)]

theorem groupRuns_nonSeq {y : Cmd} {xs : List Cmd}
    (hy : y.isSeqB = false) (hxs : ∀ x ∈ xs, x.isSeqB = false) :
    groupRuns (y :: xs) = [(y, xs)] := by
  rw [groupRuns, hy, takeRun_false_all hxs, groupRuns]

theorem renderGroup_ne_nil {sep : String} :
    ∀ {cs : List Cmd}, cs ≠ [] → renderGroup sep cs ≠ [] := by
  intro cs hne
  rcases cs with _ | ⟨c, cs⟩
  · exact absurd rfl hne
  · rcases cs with _ | ⟨c₂, cs'⟩
    · rw [renderGroup]; simp
    · rw [renderGroup]; simp

/-- The single-child description used throughout the round-trip proof. -/
def flatChild (c : Cmd) : Prop :=
  ∃ as : List String, c = .single as ∧ as ≠ [] ∧ ∀ a ∈ as, plainTok a = true

theorem parseLoop_renderGroup (sep : String) (m : Cmd)
    (hstep : ∀ (rest current : List String) (stack : List Cmd),
      Cmd.parseLoop (sep :: rest) current stack =
        Cmd.parseLoop rest [] (flushArgs current stack ++ [m])) :
    ∀ (cs : List Cmd), (∀ c ∈ cs, flatChild c) →
      ∀ stack : List Cmd,
        Cmd.parseLoop (renderGroup sep cs) [] stack =
          .ok (stack ++ interMark m cs) := by
  intro cs
  induction cs with
  | nil =>
    intro _ stack
    rw [renderGroup, interMark, Cmd.parseLoop]
    simp
  | cons c cs ih =>
    intro hflat stack
    obtain ⟨as, hc, hne, hplain⟩ := hflat c (List.mem_cons_self _ _)
    subst hc
    have hni : ")" ∉ as := by
      intro hmem
      exact absurd ((hplain ")" hmem)) (by decide)
    rcases cs with _ | ⟨c₂, cs'⟩
    · rw [renderGroup, interMark, renderTokens]
      rw [show ("(" :: (as ++ [")"]) : List String) =
        "(" :: (as ++ ")" :: []) from rfl]
      rw [parseLoop_openParen hni [] stack, parse_plain_tokens hne hplain]
      show Cmd.parseLoop [] [] (stack ++ [Cmd.single as]) = _
      rw [Cmd.parseLoop]
      simp
    · rw [renderGroup, renderTokens]
      rw [show ("(" :: (as ++ [")"] ++ sep :: renderGroup sep (c₂ :: cs'))
          : List String) =
        "(" :: (as ++ ")" :: (sep :: renderGroup sep (c₂ :: cs'))) from
        by simp]
      rw [parseLoop_openParen hni _ stack, parse_plain_tokens hne hplain]
      show Cmd.parseLoop (sep :: renderGroup sep (c₂ :: cs')) []
        (stack ++ [Cmd.single as]) = _
      rw [hstep, ih (fun x hx => hflat x (List.mem_cons_of_mem _ hx))]
      rw [interMark]
      simp [flushArgs]

theorem isSingleB_spec {c : Cmd} (h : Cmd.isSingleB c = true) :
    ∃ as, c = .single as := by
  cases c with
  | single as => exact ⟨as, rfl⟩
  | seqn cs => simp [Cmd.isSingleB] at h
  | andn cs => simp [Cmd.isSingleB] at h
  | orn cs => simp [Cmd.isSingleB] at h

theorem fold1_inter_and :
    ∀ (cs' : List Cmd), cs' ≠ [] → (∀ x ∈ cs', Cmd.isSingleB x = true) →
      ∀ (c : Cmd), Cmd.isSingleB c = true →
        fold1 c (Cmd.andn [] :: interMark (.andn []) cs') =
          .andn (c :: cs') := by
  intro cs'
  induction cs' with
  | nil => intro h; exact absurd rfl h
  | cons c₂ cs'' ih =>
    intro _ hall c hc
    obtain ⟨as, has⟩ := isSingleB_spec hc
    obtain ⟨as₂, has₂⟩ := isSingleB_spec (hall c₂ (List.mem_cons_self _ _))
    subst has
    rcases cs'' with _ | ⟨c₃, cs'''⟩
    · subst has₂
      rw [interMark]
      simp [fold1, Cmd.append, CmdAnd, andFlat]
    · rw [interMark, fold1, fold1,
        ih (by simp) (fun x hx => hall x (List.mem_cons_of_mem _ hx)) c₂
          (hall c₂ (List.mem_cons_self _ _))]
      subst has₂
      simp [Cmd.append, CmdAnd, andFlat]

theorem fold1_inter_or :
    ∀ (cs' : List Cmd), cs' ≠ [] → (∀ x ∈ cs', Cmd.isSingleB x = true) →
      ∀ (c : Cmd), Cmd.isSingleB c = true →
        fold1 c (Cmd.orn [] :: interMark (.orn []) cs') =
          .orn (c :: cs') := by
  intro cs'
  induction cs' with
  | nil => intro h; exact absurd rfl h
  | cons c₂ cs'' ih =>
    intro _ hall c hc
    obtain ⟨as, has⟩ := isSingleB_spec hc
    obtain ⟨as₂, has₂⟩ := isSingleB_spec (hall c₂ (List.mem_cons_self _ _))
    subst has
    rcases cs'' with _ | ⟨c₃, cs'''⟩
    · subst has₂
      rw [interMark]
      simp [fold1, Cmd.append, CmdOr, orFlat]
    · rw [interMark, fold1, fold1,
        ih (by simp) (fun x hx => hall x (List.mem_cons_of_mem _ hx)) c₂
          (hall c₂ (List.mem_cons_self _ _))]
      subst has₂
      simp [Cmd.append, CmdOr, orFlat]

/-- The run list `groupby` produces from a `;`-interleaved flat stack. -/
def interRuns : List Cmd → List (Cmd × List Cmd)
  | [] => []
  | [c] => [(c, [])]
  | c :: c₂ :: cs => (c, []) :: (.seqn [], []) :: interRuns (c₂ :: cs)

theorem groupRuns_cons_eq (x : Cmd) (xs : List Cmd) (r rest : List Cmd)
    (h : takeRun x.isSeqB xs = (r, rest)) :
    groupRuns (x :: xs) = (x, r) :: groupRuns rest := by
  rw [groupRuns, h]

theorem groupRuns_interSeq :
    ∀ (cs : List Cmd), (∀ x ∈ cs, x.isSeqB = false) →
      groupRuns (interMark (.seqn []) cs) = interRuns cs := by
  intro cs
  induction cs with
  | nil => intro _; rw [interMark, groupRuns, interRuns]
  | cons c cs ih =>
    intro hall
    have hc : c.isSeqB = false := hall c (List.mem_cons_self _ _)
    rcases cs with _ | ⟨c₂, cs'⟩
    · rw [interMark, interRuns,
        groupRuns_cons_eq c [] [] [] (by rw [takeRun]), groupRuns]
    · have hc₂ : c₂.isSeqB = false :=
        hall c₂ (List.mem_cons_of_mem _ (List.mem_cons_self _ _))
      obtain ⟨t, ht⟩ : ∃ t, interMark (Cmd.seqn []) (c₂ :: cs') = c₂ :: t := by
        rcases cs' with _ | ⟨c₃, cs''⟩
        · exact ⟨[], by rw [interMark]⟩
        · exact ⟨_, by rw [interMark]⟩
      rw [interMark, interRuns]
      rw [groupRuns_cons_eq c _ []
        (Cmd.seqn [] :: interMark (Cmd.seqn []) (c₂ :: cs'))
        (by rw [hc, takeRun]; simp [Cmd.isSeqB])]
      rw [groupRuns_cons_eq (Cmd.seqn []) _ []
        (interMark (Cmd.seqn []) (c₂ :: cs'))
        (by rw [show Cmd.isSeqB (.seqn []) = true from rfl, ht, takeRun]
            simp [hc₂])]
      rw [ih fun x hx => hall x (List.mem_cons_of_mem _ hx)]

theorem map_foldRun_interRuns :
    ∀ cs : List Cmd, (interRuns cs).map foldRun = interMark (.seqn []) cs := by
  intro cs
  induction cs with
  | nil => rw [interRuns, interMark]; rfl
  | cons c cs ih =>
    rcases cs with _ | ⟨c₂, cs'⟩
    · rw [interRuns, interMark]; rfl
    · rw [interRuns, interMark, List.map_cons, List.map_cons, ih]
      rfl

theorem seqFlat_interSeq :
    ∀ cs : List Cmd, (∀ x ∈ cs, Cmd.isSingleB x = true) →
      seqFlat (interMark (.seqn []) cs) = cs := by
  intro cs
  induction cs with
  | nil => intro _; rw [interMark, seqFlat]
  | cons c cs ih =>
    intro hall
    obtain ⟨as, has⟩ := isSingleB_spec (hall c (List.mem_cons_self _ _))
    rcases cs with _ | ⟨c₂, cs'⟩
    · subst has
      rw [interMark]
      simp [seqFlat]
    · subst has
      rw [interMark]
      rw [show seqFlat (Cmd.single as :: Cmd.seqn [] ::
          interMark (Cmd.seqn []) (c₂ :: cs')) =
        [Cmd.single as] ++ ([] ++
          seqFlat (interMark (Cmd.seqn []) (c₂ :: cs'))) from rfl]
      rw [ih fun x hx => hall x (List.mem_cons_of_mem _ hx)]
      simp

theorem parse_eq_of_parseLoop {args : List String} (hne : args ≠ [])
    {stack : List Cmd} (h : Cmd.parseLoop args [] [] = .ok stack) :
    Cmd.parse args =
      (match groupRuns stack with
       | [] => .error .emptyCommand
       | [run] => .ok (foldRun run)
       | r₁ :: r₂ :: rs => .ok (CmdSequence ((r₁ :: r₂ :: rs).map foldRun))) := by
  rw [Cmd.parse, if_neg (by simp [hne]), h]

/-- C6 counterexample: `parse ["a", "&&", "b", "||", "c"]` yields
`And[Single a, Or[Single b, Single c]]`; rendering that tree produces
nested same-kind parentheses, and re-parsing the rendered tokens fails with
`UnmatchedBracket` (the parser pairs the inner `(` with the first `)`),
so parse∘render∘parse ≠ parse. -/
theorem c6_counterexample :
    Cmd.parse ["a", "&&", "b", "||", "c"] =
      .ok (.andn [.single ["a"], .orn [.single ["b"], .single ["c"]]]) ∧
    renderTokens (.andn [.single ["a"], .orn [.single ["b"], .single ["c"]]]) =
      ["(", "a", ")", "&&", "(", "(", "b", ")", "||", "(", "c", ")", ")"] ∧
    Cmd.parse
        ["(", "a", ")", "&&", "(", "(", "b", ")", "||", "(", "c", ")", ")"] =
      .error .unmatchedBracket := by
  refine ⟨?_, ?_, ?_⟩
  · rw [Cmd.parse, if_neg (by simp), parseLoop_plain (by decide),
      parseLoop_andTok, parseLoop_plain (by decide), parseLoop_orTok,
      parseLoop_plain (by decide), Cmd.parseLoop]
    simp [flushArgs, CmdSingle, groupRuns, takeRun, foldRun, fold1,
      Cmd.append, CmdAnd, CmdOr, CmdSequence, andFlat, orFlat, seqFlat,
      Cmd.isSeqB]
  · simp [renderTokens, renderGroup]
  · have hpb : Cmd.parse ["(", "b"] = .error .unmatchedBracket := by
      rw [Cmd.parse, if_neg (by simp),
        parseLoop_openParen_unmatched (by decide)]
    have h1 : Cmd.parseLoop
        ["(", "a", ")", "&&", "(", "(", "b", ")", "||", "(", "c", ")", ")"]
        [] [] = .error .unmatchedBracket := by
      rw [show (["(", "a", ")", "&&", "(", "(", "b", ")", "||", "(", "c",
          ")", ")"] : List String) =
        "(" :: (["a"] ++ ")" ::
          ["&&", "(", "(", "b", ")", "||", "(", "c", ")", ")"]) from rfl]
      rw [parseLoop_openParen (by decide) _ [],
        parse_plain_tokens (by simp) (by decide)]
      show Cmd.parseLoop ["&&", "(", "(", "b", ")", "||", "(", "c", ")", ")"]
        [] ([] ++ [Cmd.single ["a"]]) = _
      rw [parseLoop_andTok]
      rw [show (["(", "(", "b", ")", "||", "(", "c", ")", ")"] :
          List String) =
        "(" :: (["(", "b"] ++ ")" :: ["||", "(", "c", ")", ")"]) from rfl]
      rw [parseLoop_openParen (by decide) _ _, hpb]
    rw [Cmd.parse, if_neg (by simp), h1]

/-- C6 (amended): the render→parse round trip holds for parse-produced trees
of flat shape — a `Single`, or one compound node with at least two children,
all `Single`s.  (For deeper parse-reachable trees it fails, because the
rendering nests same-kind brackets that the parser cannot pair — see the
counterexample; compounds with fewer than two children also collapse or
fail on re-parse.) -/
theorem c6_flat_round_trip (args : List String) (t : Cmd)
    (hp : Cmd.parse args = .ok t) (hf : flatShape t = true) :
    Cmd.parse (renderTokens t) = .ok t := by
  have hg := parse_goodCmd hp
  clear hp
  cases t with
  | single as =>
    obtain ⟨hne, hplain⟩ := goodCmd_single.mp hg
    have hne' : as ≠ [] := by
      intro h; subst h; simp at hne
    rw [renderTokens]
    exact parse_plain_tokens hne' (List.all_eq_true.mp hplain)
  | seqn cs =>
    rw [flatShape] at hf
    simp only [Bool.and_eq_true, decide_eq_true_eq] at hf
    obtain ⟨hlen2, hsing⟩ := hf
    have hsing' : ∀ x ∈ cs, Cmd.isSingleB x = true := List.all_eq_true.mp hsing
    have hflatkids : ∀ c ∈ cs, flatChild c := by
      intro c hc
      obtain ⟨as, has⟩ := isSingleB_spec (hsing' c hc)
      obtain ⟨h1, h2⟩ := goodCmd_single.mp
        (has ▸ (goodCmd_seqn.mp hg c hc).2)
      refine ⟨as, has, ?_, List.all_eq_true.mp h2⟩
      intro h; subst h; simp at h1
    have hnoseq : ∀ x ∈ cs, x.isSeqB = false := by
      intro x hx
      obtain ⟨as, has⟩ := isSingleB_spec (hsing' x hx)
      subst has; rfl
    rcases cs with _ | ⟨c₁, cs'⟩
    · simp at hlen2
    · rcases cs' with _ | ⟨c₂, cs''⟩
      · simp at hlen2
      · have hloopv : Cmd.parseLoop (renderGroup ";" (c₁ :: c₂ :: cs''))
            [] [] = .ok (interMark (.seqn []) (c₁ :: c₂ :: cs'')) := by
          rw [parseLoop_renderGroup ";" (.seqn []) parseLoop_semi _
            hflatkids []]
          simp
        rw [renderTokens,
          parse_eq_of_parseLoop (renderGroup_ne_nil (by simp)) hloopv,
          groupRuns_interSeq _ hnoseq, interRuns]
        show Except.ok (CmdSequence (((c₁, []) :: (Cmd.seqn [], []) ::
          interRuns (c₂ :: cs'')).map foldRun)) = _
        rw [show ((c₁, ([] : List Cmd)) :: (Cmd.seqn [], ([] : List Cmd)) ::
            interRuns (c₂ :: cs'')) = interRuns (c₁ :: c₂ :: cs'') from
          by rw [interRuns]]
        rw [map_foldRun_interRuns]
        rw [show CmdSequence (interMark (Cmd.seqn []) (c₁ :: c₂ :: cs'')) =
          Cmd.seqn (seqFlat (interMark (Cmd.seqn []) (c₁ :: c₂ :: cs'')))
          from rfl]
        rw [seqFlat_interSeq _ hsing']
  | andn cs =>
    rw [flatShape] at hf
    simp only [Bool.and_eq_true, decide_eq_true_eq] at hf
    obtain ⟨hlen2, hsing⟩ := hf
    have hsing' : ∀ x ∈ cs, Cmd.isSingleB x = true := List.all_eq_true.mp hsing
    have hflatkids : ∀ c ∈ cs, flatChild c := by
      intro c hc
      obtain ⟨as, has⟩ := isSingleB_spec (hsing' c hc)
      obtain ⟨h1, h2⟩ := goodCmd_single.mp
        (has ▸ (goodCmd_andn.mp hg c hc).2)
      refine ⟨as, has, ?_, List.all_eq_true.mp h2⟩
      intro h; subst h; simp at h1
    rcases cs with _ | ⟨c₁, cs'⟩
    · simp at hlen2
    · have hcs' : cs' ≠ [] := by
        intro h; subst h; simp at hlen2
      have hloopv : Cmd.parseLoop (renderGroup "&&" (c₁ :: cs')) [] [] =
          .ok (interMark (.andn []) (c₁ :: cs')) := by
        rw [parseLoop_renderGroup "&&" (.andn []) parseLoop_andTok _
          hflatkids []]
        simp
      have hgr : groupRuns (interMark (.andn []) (c₁ :: cs')) =
          [(c₁, Cmd.andn [] :: interMark (.andn []) cs')] := by
        rcases cs' with _ | ⟨c₂, cs''⟩
        · exact absurd rfl hcs'
        · rw [interMark]
          apply groupRuns_nonSeq
          · obtain ⟨as, has⟩ := isSingleB_spec
              (hsing' c₁ (List.mem_cons_self _ _))
            subst has; rfl
          · intro x hx
            rcases List.mem_cons.mp hx with h | h
            · subst h; rfl
            · rcases interMark_mem h with h' | h'
              · subst h'; rfl
              · obtain ⟨as, has⟩ := isSingleB_spec
                  (hsing' x (List.mem_cons_of_mem _ h'))
                subst has; rfl
      rw [renderTokens,
        parse_eq_of_parseLoop (renderGroup_ne_nil (by simp)) hloopv, hgr]
      show Except.ok (foldRun (c₁, Cmd.andn [] :: interMark (.andn []) cs')) = _
      rw [show foldRun (c₁, Cmd.andn [] :: interMark (.andn []) cs') =
        fold1 c₁ (Cmd.andn [] :: interMark (.andn []) cs') from rfl]
      rw [fold1_inter_and cs' hcs'
        (fun x hx => hsing' x (List.mem_cons_of_mem _ hx)) c₁
        (hsing' c₁ (List.mem_cons_self _ _))]
  | orn cs =>
    rw [flatShape] at hf
    simp only [Bool.and_eq_true, decide_eq_true_eq] at hf
    obtain ⟨hlen2, hsing⟩ := hf
    have hsing' : ∀ x ∈ cs, Cmd.isSingleB x = true := List.all_eq_true.mp hsing
    have hflatkids : ∀ c ∈ cs, flatChild c := by
      intro c hc
      obtain ⟨as, has⟩ := isSingleB_spec (hsing' c hc)
      obtain ⟨h1, h2⟩ := goodCmd_single.mp
        (has ▸ (goodCmd_orn.mp hg c hc).2)
      refine ⟨as, has, ?_, List.all_eq_true.mp h2⟩
      intro h; subst h; simp at h1
    rcases cs with _ | ⟨c₁, cs'⟩
    · simp at hlen2
    · have hcs' : cs' ≠ [] := by
        intro h; subst h; simp at hlen2
      have hloopv : Cmd.parseLoop (renderGroup "||" (c₁ :: cs')) [] [] =
          .ok (interMark (.orn []) (c₁ :: cs')) := by
        rw [parseLoop_renderGroup "||" (.orn []) parseLoop_orTok _
          hflatkids []]
        simp
      have hgr : groupRuns (interMark (.orn []) (c₁ :: cs')) =
          [(c₁, Cmd.orn [] :: interMark (.orn []) cs')] := by
        rcases cs' with _ | ⟨c₂, cs''⟩
        · exact absurd rfl hcs'
        · rw [interMark]
          apply groupRuns_nonSeq
          · obtain ⟨as, has⟩ := isSingleB_spec
              (hsing' c₁ (List.mem_cons_self _ _))
            subst has; rfl
          · intro x hx
            rcases List.mem_cons.mp hx with h | h
            · subst h; rfl
            · rcases interMark_mem h with h' | h'
              · subst h'; rfl
              · obtain ⟨as, has⟩ := isSingleB_spec
                  (hsing' x (List.mem_cons_of_mem _ h'))
                subst has; rfl
      rw [renderTokens,
        parse_eq_of_parseLoop (renderGroup_ne_nil (by simp)) hloopv, hgr]
      show Except.ok (foldRun (c₁, Cmd.orn [] :: interMark (.orn []) cs')) = _
      rw [show foldRun (c₁, Cmd.orn [] :: interMark (.orn []) cs') =
        fold1 c₁ (Cmd.orn [] :: interMark (.orn []) cs') from rfl]
      rw [fold1_inter_or cs' hcs'
        (fun x hx => hsing' x (List.mem_cons_of_mem _ hx)) c₁
        (hsing' c₁ (List.mem_cons_self _ _))]

/-- C6 witness: the amended round trip at a concretely parsed flat tree. -/
theorem c6_flat_round_trip_witness :
    Cmd.parse (renderTokens (.andn [.single ["x"], .single ["y"]])) =
      .ok (.andn [.single ["x"], .single ["y"]]) :=
  c6_flat_round_trip ["x", "&&", "y"] (.andn [.single ["x"], .single ["y"]])
    (by rw [Cmd.parse, if_neg (by simp), parseLoop_plain (by decide),
          parseLoop_andTok, parseLoop_plain (by decide), Cmd.parseLoop]
        simp [flushArgs, CmdSingle, groupRuns, takeRun, foldRun, fold1,
          Cmd.append, CmdAnd, CmdOr, CmdSequence, andFlat, orFlat, seqFlat,
          Cmd.isSeqB])
    (by simp [flatShape, Cmd.isSingleB])
